import Mathlib

set_option maxRecDepth 10000

/-
Verification of the hybrid retrieval-and-evidence layer
(`apps/api/app/services/retrieval/`): the hybrid ranker
(`hybrid_ranker.py`), the citation extractor (`citation_extractor.py`),
and the graceful-degradation shells of the two retrievers
(`bm25_retrieval.py`, `vector_retrieval.py`).

Embedding conventions:
- Python `str` is modelled as `List Char` (`PyStr`); `str.lower` is the
  ASCII lowering `lowerChar` (the inputs exercised here are ASCII).
- Python `float` scores are modelled as exact fractions: the type `Frac`
  below is an unreduced `Int`-numerator / positive-`Nat`-denominator pair
  whose order and equality are those of the rational it denotes
  (via `Frac.toRat`).  Keeping fractions unreduced makes every operation
  kernel-computable (no gcd), so concrete runs can be settled by `decide`,
  while `toRat` transports the ordered-field reasoning to `ℚ`.
- Python list slicing `l[:k]` for `k : ℕ` is `List.take k`.
- Python's stable `list.sort(key=..., reverse=True)` is
  `List.insertionSort` with the relation "left key is at least right key",
  which is likewise stable and places ties in input order.
- CPython iterates a `set` in an unspecified (but per-process
  deterministic) order; the union of chunk-id keys in `HybridRanker.rank`
  is modelled in first-appearance order.  No property proved here depends
  on which fixed order is used.
-/

/-- Exact fraction with a positive denominator, kept unreduced so that all
arithmetic is kernel-computable.  Order and equality are inherited from the
rational value `toRat`. -/
structure Frac where
  num : Int
  den : Nat
  den_pos : 0 < den
deriving DecidableEq

namespace Frac

/-- Rational value denoted by a fraction. -/
def toRat (x : Frac) : ℚ := (x.num : ℚ) / (x.den : ℚ)

/-- Embed a natural number. -/
def ofNat (n : Nat) : Frac := ⟨(n : Int), 1, Nat.one_pos⟩

/-- Build `n / d`, falling back to denominator 1 when `d = 0`. -/
def mk' (n : Int) (d : Nat) : Frac :=
  if h : 0 < d then ⟨n, d, h⟩ else ⟨n, 1, Nat.one_pos⟩

def add (x y : Frac) : Frac :=
  ⟨x.num * y.den + y.num * x.den, x.den * y.den, Nat.mul_pos x.den_pos y.den_pos⟩

def sub (x y : Frac) : Frac :=
  ⟨x.num * y.den - y.num * x.den, x.den * y.den, Nat.mul_pos x.den_pos y.den_pos⟩

def mul (x y : Frac) : Frac :=
  ⟨x.num * y.num, x.den * y.den, Nat.mul_pos x.den_pos y.den_pos⟩

/-- Division; division by a zero-valued fraction yields 0 (this case is
never reached by the embedded code, and matches `ℚ`'s `x / 0 = 0`). -/
def div (x y : Frac) : Frac :=
  if h : 0 < y.num then
    ⟨x.num * y.den, x.den * y.num.toNat, Nat.mul_pos x.den_pos (by omega)⟩
  else if h2 : y.num < 0 then
    ⟨-(x.num * y.den), x.den * y.num.natAbs, Nat.mul_pos x.den_pos (by omega)⟩
  else ⟨0, 1, Nat.one_pos⟩

/-- Order on fractions: the order of the denoted rationals. -/
def le (x y : Frac) : Prop := x.toRat ≤ y.toRat

/-- Strict order on fractions: the strict order of the denoted rationals. -/
def lt (x y : Frac) : Prop := x.toRat < y.toRat

/-- Semantic equality of fractions (Python `==` on the denoted values). -/
def equiv (x y : Frac) : Prop := x.toRat = y.toRat

theorem den_cast_pos (x : Frac) : (0 : ℚ) < (x.den : ℚ) := by
  exact_mod_cast x.den_pos

theorem le_iff (x y : Frac) : le x y ↔ x.num * (y.den : Int) ≤ y.num * (x.den : Int) := by
  rw [le, toRat, toRat, div_le_div_iff (den_cast_pos x) (den_cast_pos y)]
  constructor
  · intro h; exact_mod_cast h
  · intro h; exact_mod_cast h

theorem lt_iff (x y : Frac) : lt x y ↔ x.num * (y.den : Int) < y.num * (x.den : Int) := by
  rw [lt, toRat, toRat, div_lt_div_iff (den_cast_pos x) (den_cast_pos y)]
  constructor
  · intro h; exact_mod_cast h
  · intro h; exact_mod_cast h

theorem equiv_iff (x y : Frac) : equiv x y ↔ x.num * (y.den : Int) = y.num * (x.den : Int) := by
  rw [equiv, toRat, toRat, div_eq_div_iff (ne_of_gt (den_cast_pos x)) (ne_of_gt (den_cast_pos y))]
  constructor
  · intro h; exact_mod_cast h
  · intro h; exact_mod_cast h

instance (x y : Frac) : Decidable (le x y) :=
  decidable_of_iff _ (le_iff x y).symm

instance (x y : Frac) : Decidable (lt x y) :=
  decidable_of_iff _ (lt_iff x y).symm

instance (x y : Frac) : Decidable (equiv x y) :=
  decidable_of_iff _ (equiv_iff x y).symm

@[simp] theorem toRat_ofNat (n : Nat) : toRat (ofNat n) = (n : ℚ) := by
  simp [toRat, ofNat]

@[simp] theorem toRat_mk' (n : Int) (d : Nat) (h : 0 < d) :
    toRat (mk' n d) = (n : ℚ) / (d : ℚ) := by
  simp [toRat, mk', h]

@[simp] theorem toRat_add (x y : Frac) : toRat (add x y) = toRat x + toRat y := by
  have hx : ((x.den : ℚ)) ≠ 0 := ne_of_gt (den_cast_pos x)
  have hy : ((y.den : ℚ)) ≠ 0 := ne_of_gt (den_cast_pos y)
  rw [toRat, toRat, toRat, add]
  push_cast
  field_simp
  try ring

@[simp] theorem toRat_sub (x y : Frac) : toRat (sub x y) = toRat x - toRat y := by
  have hx : ((x.den : ℚ)) ≠ 0 := ne_of_gt (den_cast_pos x)
  have hy : ((y.den : ℚ)) ≠ 0 := ne_of_gt (den_cast_pos y)
  rw [toRat, toRat, toRat, sub]
  push_cast
  field_simp
  try ring

@[simp] theorem toRat_mul (x y : Frac) : toRat (mul x y) = toRat x * toRat y := by
  have hx : ((x.den : ℚ)) ≠ 0 := ne_of_gt (den_cast_pos x)
  have hy : ((y.den : ℚ)) ≠ 0 := ne_of_gt (den_cast_pos y)
  rw [toRat, toRat, toRat, mul]
  push_cast
  field_simp
  try ring

@[simp] theorem toRat_div (x y : Frac) : toRat (div x y) = toRat x / toRat y := by
  have hx : ((x.den : ℚ)) ≠ 0 := ne_of_gt (den_cast_pos x)
  have hy : ((y.den : ℚ)) ≠ 0 := ne_of_gt (den_cast_pos y)
  rw [div]
  by_cases hpos : 0 < y.num
  · have hnum : ((y.num.toNat : ℚ)) = (y.num : ℚ) := by
      exact_mod_cast Int.toNat_of_nonneg (le_of_lt hpos)
    have hnz : (y.num : ℚ) ≠ 0 := by exact_mod_cast ne_of_gt hpos
    simp only [dif_pos hpos, toRat]
    push_cast
    rw [hnum]
    field_simp
    try ring
  · by_cases hneg : y.num < 0
    · have hnum : ((y.num.natAbs : ℚ)) = -(y.num : ℚ) := by
        rw [Nat.cast_natAbs, abs_of_neg hneg]
        push_cast
        ring
      have hnz : (y.num : ℚ) ≠ 0 := by exact_mod_cast ne_of_lt hneg
      simp only [dif_neg hpos, dif_pos hneg, toRat]
      push_cast
      rw [hnum]
      field_simp
      try ring
    · have hz : y.num = 0 := by omega
      simp [dif_neg hpos, dif_neg hneg, toRat, hz]

/-- Zero fraction. -/
def zero : Frac := ⟨0, 1, Nat.one_pos⟩

/-- Python `max` on two scores (ties keep the second argument; the denoted
value is the same either way). -/
def fmax (x y : Frac) : Frac := if le x y then y else x

/-- Python `min` on two scores. -/
def fmin (x y : Frac) : Frac := if le x y then x else y

@[simp] theorem toRat_zero : toRat zero = 0 := by simp [toRat, zero]

@[simp] theorem toRat_fmax (x y : Frac) : toRat (fmax x y) = max (toRat x) (toRat y) := by
  by_cases h : le x y
  · rw [fmax, if_pos h, max_eq_right h]
  · rw [fmax, if_neg h, max_eq_left (le_of_not_le h)]

@[simp] theorem toRat_fmin (x y : Frac) : toRat (fmin x y) = min (toRat x) (toRat y) := by
  by_cases h : le x y
  · rw [fmin, if_pos h, min_eq_left h]
  · rw [fmin, if_neg h, min_eq_right (le_of_not_le h)]

end Frac

/-! ### Python string primitives

Python `str` values are modelled as `List Char`.  The helpers below mirror
the exact string operations used by the retrieval code: `str.lower`,
`re.findall` occurrence counting (non-overlapping, left to right),
`str.find` / `str.rfind`, slicing, `str.split`, `str.strip`,
`range(0, stop, step)` and `enumerate`. -/

abbrev PyStr := List Char

/-- ASCII lowering, as `str.lower` behaves on the ASCII range. -/
def lowerChar (c : Char) : Char :=
  if 'A' ≤ c ∧ c ≤ 'Z' then Char.ofNat (c.toNat + 32) else c

/-- Python `s.lower()`. -/
def pyLower (s : PyStr) : PyStr := s.map lowerChar

/-- Python regex `\w` on the ASCII range: letters, digits, underscore. -/
def isWordChar (c : Char) : Bool := c.isAlphanum || c = '_'

/-- Whether `pat` matches at the head of `s` (full containment). -/
def matchesAt (pat s : PyStr) : Bool := decide (s.take pat.length = pat)

/-- Occurrence of `pat` at offset `p` of `s` (full containment). -/
def occursAt (pat s : PyStr) (p : Nat) : Prop := (s.drop p).take pat.length = pat

instance (pat s : PyStr) (p : Nat) : Decidable (occursAt pat s p) := by
  unfold occursAt; infer_instance

/-- Fuel-driven scanner for `countOccur` (fuel bounds the remaining length,
so the definition is structural and kernel-computable). -/
def countOccurAux (pat : PyStr) : Nat → PyStr → Nat
  | 0, _ => 0
  | _, [] => 0
  | fuel + 1, c :: rest =>
    if matchesAt pat (c :: rest) then
      1 + countOccurAux pat fuel ((c :: rest).drop pat.length)
    else
      countOccurAux pat fuel rest

/-- Number of non-overlapping, left-to-right occurrences of the (nonempty)
literal `pat` in `s`: the length of Python `re.findall(re.escape(pat), s)`,
also `s.count(pat)`.  Returns 0 for an empty pattern (the embedded code
never searches for one). -/
def countOccur (pat s : PyStr) : Nat :=
  if pat.isEmpty then 0 else countOccurAux pat s.length s

/-- Python `s.find(pat)`: least offset of an occurrence, `-1` if none. -/
def pyFind (pat s : PyStr) : Int :=
  match (List.range (s.length + 1)).find? (fun p => matchesAt pat (s.drop p)) with
  | some p => (p : Int)
  | none => -1

/-- Python `s.rfind(ch, 0, end)` for a single character: greatest index
`i < end` (after clamping `end` Python-style) with `s[i] = ch`, else `-1`. -/
def pyRFindChar (ch : Char) (s : PyStr) (stop : Int) : Int :=
  let stopN : Nat := if stop < 0 then ((s.length : Int) + stop).toNat else min stop.toNat s.length
  match ((List.range stopN).filter (fun i => s.getD i ' ' = ch)).getLast? with
  | some i => (i : Int)
  | none => -1

/-- Python `l[:k]` for an integer `k` (negative `k` counts from the end). -/
def pyTakeI (k : Int) (s : PyStr) : PyStr :=
  if 0 ≤ k then s.take k.toNat else s.take ((s.length : Int) + k).toNat

/-- Python `range(0, stop, step)` for a possibly non-positive `stop` and a
positive `step`. -/
def pyRange (stop : Int) (step : Nat) : List Nat :=
  if stop ≤ 0 then [] else (List.range ((stop.toNat - 1) / step + 1)).map (fun i => i * step)

/-- Accumulator for Python `s.split()` (whitespace split, empty pieces
dropped); `cur` is the reversed current word. -/
def pySplitWsAux : PyStr → PyStr → List PyStr
  | cur, [] => if cur.isEmpty then [] else [cur.reverse]
  | cur, c :: rest =>
    if c.isWhitespace then
      if cur.isEmpty then pySplitWsAux [] rest
      else cur.reverse :: pySplitWsAux [] rest
    else pySplitWsAux (c :: cur) rest

/-- Python `s.split()`. -/
def pySplitWs (s : PyStr) : List PyStr := pySplitWsAux [] s

/-- Python `s.strip()`. -/
def pyStrip (s : PyStr) : PyStr :=
  ((s.dropWhile Char.isWhitespace).reverse.dropWhile Char.isWhitespace).reverse

/-- Ordered pairs `(l[i], l[j])` with `i < j`, as the nested loops
`for i, a in enumerate(l): for b in l[i+1:]` produce them. -/
def ordPairs {α : Type} : List α → List (α × α)
  | [] => []
  | x :: xs => (xs.map (fun y => (x, y))) ++ ordPairs xs

/-! ### Data model (`bm25_retrieval.py`, `vector_retrieval.py`,
`hybrid_ranker.py`, `citation_extractor.py`)

The `metadata` dictionaries of `BM25Result` / `VectorResult` only carry
token/char counts and a method tag and are not read by any embedded code,
so they are omitted.  `HybridResult.metadata` entries that the ranker
itself reads or that the claims mention (`bm25_normalized`,
`vector_normalized`, `rrf_score`) are explicit fields. -/

structure BM25Result where
  chunk_id : PyStr
  content : PyStr
  page_number : Option Int
  section_ref : Option PyStr
  section_title : Option PyStr
  score : Frac
deriving DecidableEq

structure VectorResult where
  chunk_id : PyStr
  content : PyStr
  page_number : Option Int
  section_ref : Option PyStr
  section_title : Option PyStr
  similarity_score : Frac
deriving DecidableEq

structure HybridResult where
  chunk_id : PyStr
  content : PyStr
  page_number : Option Int
  section_ref : Option PyStr
  section_title : Option PyStr
  hybrid_score : Frac
  bm25_score : Option Frac
  vector_score : Option Frac
  rank_bm25 : Option Nat
  rank_vector : Option Nat
  bm25_normalized : Frac
  vector_normalized : Frac
  rrf_score : Frac
deriving DecidableEq

/-- Maximum of a nonempty list of scores, Python `max(scores)` (the `[]`
case is never reached by the embedded code). -/
def listMax : List Frac → Frac
  | [] => Frac.zero
  | x :: xs => xs.foldl Frac.fmax x

/-- Minimum of a nonempty list of scores, Python `min(scores)`. -/
def listMin : List Frac → Frac
  | [] => Frac.zero
  | x :: xs => xs.foldl Frac.fmin x

namespace HybridRanker

/-- Embedding of `HybridRanker._normalize_bm25_scores`: min-max
normalization of BM25 scores, all-1.0 when every score is equal. -/
def normalize_bm25_scores (results : List BM25Result) : List (BM25Result × Frac) :=
  if results.isEmpty then []
  else
    let scores := results.map (·.score)
    let max_score := listMax scores
    let min_score := listMin scores
    if Frac.equiv max_score min_score then results.map (fun r => (r, Frac.ofNat 1))
    else
      results.map (fun r =>
        (r, Frac.div (Frac.sub r.score min_score) (Frac.sub max_score min_score)))

/-- Embedding of `HybridRanker._normalize_vector_scores`: all-1.0 when every
similarity is equal, otherwise each similarity clamped to `[0, 1]` (the
computed min/max are not used in this branch — this mirrors the source). -/
def normalize_vector_scores (results : List VectorResult) : List (VectorResult × Frac) :=
  if results.isEmpty then []
  else
    let scores := results.map (·.similarity_score)
    let max_score := listMax scores
    let min_score := listMin scores
    if Frac.equiv max_score min_score then results.map (fun r => (r, Frac.ofNat 1))
    else
      results.map (fun r =>
        (r, Frac.fmax Frac.zero (Frac.fmin (Frac.ofNat 1) r.similarity_score)))

/-- Embedding of `HybridRanker._calculate_rrf_score` with the default
`k = 60`; ranks are 0-based, `none` when the method did not return the
chunk. -/
def calculate_rrf_score (bm25_rank vector_rank : Option Nat) : Frac :=
  Frac.add
    (match bm25_rank with
     | some r => Frac.mk' 1 (60 + r + 1)
     | none => Frac.zero)
    (match vector_rank with
     | some r => Frac.mk' 1 (60 + r + 1)
     | none => Frac.zero)

/-- Python dict lookup for a dict built by comprehension over `entries`
in order: on duplicate keys the last entry wins. -/
def dictLast {β : Type} (entries : List (PyStr × β)) (cid : PyStr) : Option β :=
  ((entries.filter (fun e => decide (e.1 = cid))).getLast?).map (·.2)

/-- Entries of `bm25_map = {r.chunk_id: (r, score, rank) for rank, (r, score)
in enumerate(normalized_bm25)}`. -/
def bm25_entries (nb : List (BM25Result × Frac)) :
    List (PyStr × (BM25Result × Frac × Nat)) :=
  nb.enum.map (fun p => (p.2.1.chunk_id, (p.2.1, p.2.2, p.1)))

/-- Entries of `vector_map`, analogously. -/
def vector_entries (nv : List (VectorResult × Frac)) :
    List (PyStr × (VectorResult × Frac × Nat)) :=
  nv.enum.map (fun p => (p.2.1.chunk_id, (p.2.1, p.2.2, p.1)))

/-- First-appearance-unique keys (models iterating the set
`set(bm25_map.keys()) | set(vector_map.keys())`; see header note on set
order). -/
def uniqKeysAux (seen : List PyStr) : List PyStr → List PyStr
  | [] => []
  | k :: ks => if k ∈ seen then uniqKeysAux seen ks else k :: uniqKeysAux (k :: seen) ks

/-- Body of the per-chunk loop of `HybridRanker.rank`: build one
`HybridResult` from the two map lookups.  The `none, none` case is
unreachable for a chunk id drawn from the union of the two key sets. -/
def buildResult (bm25_weight vector_weight : Frac)
    (bd : Option (BM25Result × Frac × Nat)) (vd : Option (VectorResult × Frac × Nat))
    (cid : PyStr) : HybridResult :=
  let bm25_norm_score : Frac := match bd with | some x => x.2.1 | none => Frac.zero
  let vector_norm_score : Frac := match vd with | some x => x.2.1 | none => Frac.zero
  let bm25_rank : Option Nat := bd.map (fun x => x.2.2)
  let vector_rank : Option Nat := vd.map (fun x => x.2.2)
  let hybrid_score : Frac :=
    Frac.add (Frac.mul bm25_weight bm25_norm_score) (Frac.mul vector_weight vector_norm_score)
  let rrf_score := calculate_rrf_score bm25_rank vector_rank
  let final_score : Frac :=
    Frac.add (Frac.mul (Frac.mk' 4 5) hybrid_score) (Frac.mul (Frac.mk' 1 5) rrf_score)
  match bd, vd with
  | some x, _ =>
    { chunk_id := cid, content := x.1.content, page_number := x.1.page_number,
      section_ref := x.1.section_ref, section_title := x.1.section_title,
      hybrid_score := final_score, bm25_score := some x.1.score,
      vector_score := vd.map (fun v => v.1.similarity_score),
      rank_bm25 := bm25_rank.map (· + 1), rank_vector := vector_rank.map (· + 1),
      bm25_normalized := bm25_norm_score, vector_normalized := vector_norm_score,
      rrf_score := rrf_score }
  | none, some v =>
    { chunk_id := cid, content := v.1.content, page_number := v.1.page_number,
      section_ref := v.1.section_ref, section_title := v.1.section_title,
      hybrid_score := final_score, bm25_score := none,
      vector_score := some v.1.similarity_score,
      rank_bm25 := none, rank_vector := vector_rank.map (· + 1),
      bm25_normalized := bm25_norm_score, vector_normalized := vector_norm_score,
      rrf_score := rrf_score }
  | none, none =>
    { chunk_id := cid, content := [], page_number := none,
      section_ref := none, section_title := none,
      hybrid_score := final_score, bm25_score := none, vector_score := none,
      rank_bm25 := none, rank_vector := none,
      bm25_normalized := bm25_norm_score, vector_normalized := vector_norm_score,
      rrf_score := rrf_score }

/-- Loop of `HybridRanker._apply_diversity_filter`: walk the sorted results
keeping running per-section and per-page counts (`defaultdict(int)`),
discount each result by the counts seen so far, then bump the counts.
Returns the results paired with their `adjusted_score`.  An empty
`section_ref` string is falsy in Python, hence the `isEmpty` guards. -/
def diversityLoop (diversity_factor : Frac) :
    List HybridResult → (PyStr → Nat) → (Int → Nat) → List (HybridResult × Frac)
  | [], _, _ => []
  | r :: rest, secs, pages =>
    let section_penalty : Frac :=
      match r.section_ref with
      | some sref =>
        if sref.isEmpty then Frac.zero
        else Frac.mul (Frac.mul diversity_factor (Frac.ofNat (secs sref))) (Frac.mk' 1 10)
      | none => Frac.zero
    let page_penalty : Frac :=
      match r.page_number with
      | some pg => Frac.mul (Frac.mul diversity_factor (Frac.ofNat (pages pg))) (Frac.mk' 1 20)
      | none => Frac.zero
    let diversity_penalty := Frac.add section_penalty page_penalty
    let adjusted_score := Frac.mul r.hybrid_score (Frac.sub (Frac.ofNat 1) diversity_penalty)
    let secs2 : PyStr → Nat :=
      match r.section_ref with
      | some sref =>
        if sref.isEmpty then secs else fun s => if s = sref then secs sref + 1 else secs s
      | none => secs
    let pages2 : Int → Nat :=
      match r.page_number with
      | some pg => fun p => if p = pg then pages pg + 1 else pages p
      | none => pages
    (r, adjusted_score) :: diversityLoop diversity_factor rest secs2 pages2

/-- Embedding of `HybridRanker._apply_diversity_filter`: compute adjusted
scores, then stably re-sort by them, descending; no result is dropped. -/
def apply_diversity_filter (diversity_factor : Frac) (results : List HybridResult) :
    List HybridResult :=
  if Frac.le diversity_factor Frac.zero ∨ results.length ≤ 1 then results
  else
    let pairs := diversityLoop diversity_factor results (fun _ => 0) (fun _ => 0)
    (List.insertionSort (fun a b : HybridResult × Frac => Frac.le b.2 a.2) pairs).map (·.1)

/-- Lookup in `bm25_map` for a given chunk id. -/
def bm25_lookup (bm25_results : List BM25Result) (cid : PyStr) :
    Option (BM25Result × Frac × Nat) :=
  dictLast (bm25_entries (normalize_bm25_scores bm25_results)) cid

/-- Lookup in `vector_map` for a given chunk id. -/
def vector_lookup (vector_results : List VectorResult) (cid : PyStr) :
    Option (VectorResult × Frac × Nat) :=
  dictLast (vector_entries (normalize_vector_scores vector_results)) cid

/-- Fusion loop of `HybridRanker.rank` (lines building `hybrid_results`):
normalize both lists, build the two lookup maps, and map `buildResult`
over the union of chunk ids. -/
def fused_results (bm25_weight vector_weight : Frac) (bm25_results : List BM25Result)
    (vector_results : List VectorResult) : List HybridResult :=
  let bm25_map := bm25_entries (normalize_bm25_scores bm25_results)
  let vector_map := vector_entries (normalize_vector_scores vector_results)
  let all_chunk_ids := uniqKeysAux [] (bm25_map.map (·.1) ++ vector_map.map (·.1))
  all_chunk_ids.map (fun cid =>
    buildResult bm25_weight vector_weight (bm25_lookup bm25_results cid)
      (vector_lookup vector_results cid) cid)

/-- Embedding of `HybridRanker.rank` for a ranker whose effective weights
are `bm25_weight` / `vector_weight`; `0.8` and `0.2` of the final blend are
the fractions `4/5` and `1/5` inside `buildResult`. -/
def rank (bm25_weight vector_weight : Frac) (bm25_results : List BM25Result)
    (vector_results : List VectorResult) (limit : Nat) (diversity_factor : Frac) :
    List HybridResult :=
  if bm25_results.isEmpty ∧ vector_results.isEmpty then []
  else
    (if Frac.lt Frac.zero diversity_factor then
      apply_diversity_filter diversity_factor
        (List.insertionSort (fun a b : HybridResult => Frac.le b.hybrid_score a.hybrid_score)
          (fused_results bm25_weight vector_weight bm25_results vector_results))
    else
      List.insertionSort (fun a b : HybridResult => Frac.le b.hybrid_score a.hybrid_score)
        (fused_results bm25_weight vector_weight bm25_results vector_results)).take limit

/-- Union of the chunk ids of the two input lists, in first-appearance
order and without duplicates (so its length is the number of distinct
chunk ids present in either list). -/
def union_chunk_ids (bm25_results : List BM25Result) (vector_results : List VectorResult) :
    List PyStr :=
  uniqKeysAux [] (bm25_results.map (·.chunk_id) ++ vector_results.map (·.chunk_id))

end HybridRanker

/-- Citation record (`citation_extractor.py`); the `metadata` dictionary's
entries are explicit fields (`bm25_score`, `vector_score`,
`query_term_matches`, `snippet_quality`). -/
structure Citation where
  chunk_id : PyStr
  page_number : Option Int
  section_ref : Option PyStr
  section_title : Option PyStr
  text_snippet : PyStr
  relevance_score : Frac
  start_char : Option Nat
  end_char : Option Nat
  highlighted_snippet : PyStr
  bm25_score : Option Frac
  vector_score : Option Frac
  query_term_matches : Nat
  snippet_quality : Frac
deriving DecidableEq

namespace CitationExtractor

/-- Stop-word set of `CitationExtractor._extract_query_terms`. -/
def stop_words : List PyStr :=
  ["the", "a", "an", "and", "or", "but", "in", "on", "at", "to", "for",
   "of", "with", "by", "is", "are", "was", "were", "be", "been", "being",
   "have", "has", "had", "do", "does", "did", "will", "would", "could",
   "should", "may", "might", "can", "what", "where", "when", "why", "how"].map String.toList

/-- Embedding of `CitationExtractor._extract_query_terms`: lowercase, strip
characters outside `[\w\s-]`, split on whitespace, drop stop words and
tokens of length at most 2. -/
def extract_query_terms (query_text : PyStr) : List PyStr :=
  if query_text.isEmpty then []
  else
    let cleaned := (pyLower query_text).filter (fun c => isWordChar c || c.isWhitespace || c = '-')
    let terms := pySplitWs cleaned
    terms.filter (fun t => decide (2 < t.length) && decide (t ∉ stop_words))

/-- Score of one sliding window (`CitationExtractor._extract_snippet`,
scoring part): count of query-term occurrences, plus a bonus of 0.5 for
each ordered pair of terms whose first occurrences in the window lie within
distance 100 of each other. -/
def windowScore (window : PyStr) (query_terms : List PyStr) : Frac :=
  let base : Nat := (query_terms.map (fun t => countOccur t window)).sum
  let bonus : Frac :=
    if 1 < query_terms.length then
      (ordPairs query_terms).foldl (fun acc pr =>
        let term1_pos := pyFind pr.1 window
        let term2_pos := pyFind pr.2 window
        if term1_pos ≠ -1 ∧ term2_pos ≠ -1 ∧ (term1_pos - term2_pos).natAbs < 100 then
          Frac.add acc (Frac.mk' 1 2)
        else acc) Frac.zero
    else Frac.zero
  Frac.add (Frac.ofNat base) bonus

/-- Fold of `CitationExtractor._extract_snippet`'s window loop: running
`(best_score, best_start)`, updated on strict improvement. -/
def bestWindow (content_lower : PyStr) (query_terms : List PyStr) (starts : List Nat)
    (window_size : Nat) : Frac × Nat :=
  starts.foldl (fun best s =>
    let score := windowScore ((content_lower.drop s).take window_size) query_terms
    if Frac.lt best.1 score then (score, s) else best) (Frac.zero, 0)

/-- Embedding of `CitationExtractor._clean_snippet_boundaries`. -/
def clean_snippet_boundaries (maxLen : Nat) (snippet : PyStr) (isStart : Bool) : PyStr :=
  match snippet with
  | [] => snippet
  | c :: _ =>
    let s1 := if isStart && !c.isUpper then "...".toList ++ snippet else snippet
    let last_sentence := pyRFindChar '.' s1 (s1.length : Int)
    let last_exclamation := pyRFindChar '!' s1 (s1.length : Int)
    let last_question := pyRFindChar '?' s1 (s1.length : Int)
    let sentence_end := max last_sentence (max last_exclamation last_question)
    if Frac.lt (Frac.mul (Frac.ofNat s1.length) (Frac.mk' 7 10)) (Frac.mk' sentence_end 1) then
      pyTakeI (sentence_end + 1) s1
    else
      if maxLen ≤ s1.length then
        let last_space := pyRFindChar ' ' s1 ((maxLen : Int) - 3)
        if Frac.lt (Frac.mul (Frac.ofNat s1.length) (Frac.mk' 4 5)) (Frac.mk' last_space 1) then
          pyTakeI last_space s1 ++ "...".toList
        else
          pyTakeI ((maxLen : Int) - 3) s1 ++ "...".toList
      else s1

/-- Embedding of `CitationExtractor._extract_snippet` for an extractor with
`max_snippet_length = maxLen`; returns `(snippet, start_char, end_char)`. -/
def extract_snippet (maxLen : Nat) (content : PyStr) (query_terms : List PyStr) :
    PyStr × Option Nat × Option Nat :=
  if content.isEmpty then ([], none, none)
  else if query_terms.isEmpty then
    let snippet := content.take maxLen
    let snippet2 := if maxLen < content.length then snippet ++ "...".toList else snippet
    (snippet2, some 0, some snippet2.length)
  else
    let content_lower := pyLower content
    let window_size := maxLen
    let starts := pyRange ((content.length : Int) - (window_size : Int) + 1) 50
    let best := bestWindow content_lower query_terms starts window_size
    let best_start := best.2
    let end_pos := min (best_start + window_size) content.length
    let snippet0 := (content.drop best_start).take (end_pos - best_start)
    let snippet := clean_snippet_boundaries maxLen snippet0 (decide (0 < best_start))
    (snippet, some best_start, some (best_start + snippet.length))

/-- Word-ness of the character at (integer) index `i`, out-of-range indices
counting as non-word; used for regex `\b`. -/
def wordAtI (x : PyStr) (i : Int) : Bool :=
  if 0 ≤ i ∧ i < (x.length : Int) then isWordChar (x.getD i.toNat ' ') else false

/-- Regex word boundary `\b` between indices `i - 1` and `i` of `x`. -/
def boundaryAt (x : PyStr) (i : Nat) : Bool :=
  decide (wordAtI x ((i : Int) - 1) ≠ wordAtI x (i : Int))

/-- Match of `re.compile(r'\b' + re.escape(t) + r'\b', re.IGNORECASE)` at
offset `p` of `x` (case-insensitive literal with word boundaries; the
length equation forces full containment). -/
def matchAtWB (x t : PyStr) (p : Nat) : Bool :=
  decide (pyLower ((x.drop p).take t.length) = pyLower t) &&
    boundaryAt x p && boundaryAt x (p + t.length)

/-- Fuel-driven scanner of one `re.sub` pass replacing each match of term
`t` in `x` by `**t**`, scanning left to right past each replacement. -/
def subAuxF (x t : PyStr) : Nat → Nat → PyStr
  | 0, _ => []
  | fuel + 1, p =>
    if p < x.length then
      if matchAtWB x t p then
        "**".toList ++ t ++ "**".toList ++ subAuxF x t fuel (p + t.length)
      else x.getD p ' ' :: subAuxF x t fuel (p + 1)
    else []

/-- One `re.sub(r'\b' + re.escape(t) + r'\b', f'**{t}**', x, re.IGNORECASE)`
call. -/
def subTermWB (t x : PyStr) : PyStr := subAuxF x t x.length 0

/-- Embedding of `CitationExtractor._highlight_terms`: wrap each
word-bounded, case-insensitive occurrence of each query term in `**`,
processing longer terms first (Python's stable `sorted(key=len,
reverse=True)`). -/
def highlight_terms (snippet : PyStr) (query_terms : List PyStr) : PyStr :=
  if query_terms.isEmpty then snippet
  else
    let sorted_terms := List.insertionSort (fun a b : PyStr => b.length ≤ a.length) query_terms
    sorted_terms.foldl (fun acc t => subTermWB t acc) snippet

/-- Embedding of `CitationExtractor._count_query_matches` (an empty term
would count `len + 1` in Python; the embedded pipeline never produces
one). -/
def count_query_matches (snippet : PyStr) (query_terms : List PyStr) : Nat :=
  let snippet_lower := pyLower snippet
  query_terms.foldl (fun acc t =>
    if pyFind t snippet_lower ≠ -1 then acc + countOccur t snippet_lower else acc) 0

/-- Python `s.endswith(pat)` for a literal suffix. -/
def endsWithSeq (s pat : PyStr) : Bool := decide (s.drop (s.length - pat.length) = pat)

/-- Embedding of `CitationExtractor._assess_snippet_quality`. -/
def assess_snippet_quality (maxLen : Nat) (snippet : PyStr) (query_terms : List PyStr) : Frac :=
  if snippet.isEmpty then Frac.zero
  else
    let length_factor :=
      Frac.fmin (Frac.div (Frac.ofNat snippet.length) (Frac.ofNat maxLen)) (Frac.ofNat 1)
    let q1 := if Frac.lt (Frac.mk' 3 10) length_factor then Frac.mk' 1 5 else Frac.zero
    let q2 :=
      if query_terms.isEmpty then Frac.zero
      else
        let snippet_lower := pyLower snippet
        let matching := (query_terms.filter (fun t => pyFind t snippet_lower ≠ -1)).length
        Frac.mul (Frac.mk' 2 5) (Frac.div (Frac.ofNat matching) (Frac.ofNat query_terms.length))
    let stripped := pyStrip snippet
    let q3 :=
      if endsWithSeq stripped ['.'] || endsWithSeq stripped ['!'] || endsWithSeq stripped ['?'] ||
          endsWithSeq stripped "...\"".toList then Frac.mk' 1 5
      else Frac.zero
    let sentences := countOccur ['.'] snippet + countOccur ['!'] snippet + countOccur ['?'] snippet
    let q4 := if 1 ≤ sentences then Frac.mk' 1 5 else Frac.zero
    Frac.fmin (Frac.add (Frac.add (Frac.add q1 q2) q3) q4) (Frac.ofNat 1)

/-- Citation built for one hybrid result inside `extract_citations`. -/
def mkCitation (maxLen : Nat) (query_terms : List PyStr) (result : HybridResult) : Citation :=
  let snip := extract_snippet maxLen result.content query_terms
  { chunk_id := result.chunk_id, page_number := result.page_number,
    section_ref := result.section_ref, section_title := result.section_title,
    text_snippet := snip.1, relevance_score := result.hybrid_score,
    start_char := snip.2.1, end_char := snip.2.2,
    highlighted_snippet := highlight_terms snip.1 query_terms,
    bm25_score := result.bm25_score, vector_score := result.vector_score,
    query_term_matches := count_query_matches snip.1 query_terms,
    snippet_quality := assess_snippet_quality maxLen snip.1 query_terms }

/-- Collection loop of `extract_citations`: walk the results in input
order, break once `max_citations` citations are gathered, skip results
below `min_relevance`; `count` is the number gathered so far. -/
def collectLoop (maxLen : Nat) (query_terms : List PyStr) (max_citations : Nat)
    (min_relevance : Frac) : List HybridResult → Nat → List Citation
  | [], _ => []
  | r :: rest, count =>
    if max_citations ≤ count then []
    else if Frac.lt r.hybrid_score min_relevance then
      collectLoop maxLen query_terms max_citations min_relevance rest count
    else
      mkCitation maxLen query_terms r ::
        collectLoop maxLen query_terms max_citations min_relevance rest (count + 1)

/-- Embedding of `CitationExtractor.extract_citations` for an extractor
with `max_snippet_length = maxLen`. -/
def extract_citations (maxLen : Nat) (query_text : PyStr) (hybrid_results : List HybridResult)
    (max_citations : Nat) (min_relevance : Frac) : List Citation :=
  if hybrid_results.isEmpty then []
  else
    let query_terms := extract_query_terms query_text
    let citations := collectLoop maxLen query_terms max_citations min_relevance hybrid_results 0
    let sorted := List.insertionSort
      (fun a b : Citation => Frac.le b.relevance_score a.relevance_score) citations
    sorted.take max_citations

end CitationExtractor

/-! ### Retriever shells (`bm25_retrieval.py`, `vector_retrieval.py`)

The two `retrieve` coroutines perform external I/O; what the claims are
about is their exception flow, so each external step is modelled by its
outcome: `Except Unit β` is a Python call that either raises (`error`) or
returns (`ok`).  Crucially, in the source `pool = await get_db_pool()` sits
*outside* the `try`, and `get_db_pool` re-raises pool-creation failures
(`create_db_pool` ends its `except` with `raise`), while everything from
`pool.acquire()` through `conn.fetch(...)` sits inside the `try` whose
handlers log and return `[]`.  The `if not pool` guard is kept as the
`ok none` case (a falsy pool), although `get_db_pool` can never actually
return a falsy value — on failure it raises. -/

namespace BM25Retriever

/-- Row returned by the tsvector query (its `token_count` / `char_count`
columns only feed the dropped metadata dict). -/
structure Row where
  chunk_id : PyStr
  content : PyStr
  page_number : Option Int
  section_ref : Option PyStr
  section_title : Option PyStr
  score : Frac

/-- Outcomes of the external calls of one `BM25Retriever.retrieve` run. -/
structure Backend where
  pool : Except Unit (Option Unit)
  rows : Except Unit (List Row)

/-- Exception flow of `BM25Retriever.retrieve`: `ok` is a normal return,
`error` a propagated exception. -/
def retrieve (env : Backend) : Except Unit (List BM25Result) :=
  match env.pool with
  | .error e => .error e
  | .ok none => .ok []
  | .ok (some _) =>
    match env.rows with
    | .error _ => .ok []
    | .ok rows =>
      .ok (rows.map (fun row =>
        { chunk_id := row.chunk_id, content := row.content,
          page_number := row.page_number, section_ref := row.section_ref,
          section_title := row.section_title, score := row.score }))

end BM25Retriever

namespace VectorRetriever

/-- Row returned by the pgvector query. -/
structure Row where
  chunk_id : PyStr
  content : PyStr
  page_number : Option Int
  section_ref : Option PyStr
  section_title : Option PyStr
  similarity_score : Frac

/-- Outcomes of the external calls of one `VectorRetriever.retrieve` run:
the embedding step (`_get_query_embedding`, whose own failures the
surrounding `try` catches), then pool acquisition, then the query. -/
structure Backend where
  embedding : Except Unit (Option (List Frac))
  pool : Except Unit (Option Unit)
  rows : Except Unit (List Row)

/-- Exception flow of `VectorRetriever.retrieve`.  A raised or falsy
(`None`/empty) embedding degrades to `[]`; a pool-creation failure
propagates (it is raised outside the `try`); a query failure degrades
to `[]`. -/
def retrieve (env : Backend) : Except Unit (List VectorResult) :=
  match env.embedding with
  | .error _ => .ok []
  | .ok none => .ok []
  | .ok (some emb) =>
    if emb.isEmpty then .ok []
    else
      match env.pool with
      | .error e => .error e
      | .ok none => .ok []
      | .ok (some _) =>
        match env.rows with
        | .error _ => .ok []
        | .ok rows =>
          .ok (rows.map (fun row =>
            { chunk_id := row.chunk_id, content := row.content,
              page_number := row.page_number, section_ref := row.section_ref,
              section_title := row.section_title,
              similarity_score := row.similarity_score }))

end VectorRetriever

/-! ### Statement-side helpers and concrete inputs -/

/-- Python `s.replace('**', '')`: delete every bold marker, scanning left
to right. -/
def stripMarkers : PyStr → PyStr
  | [] => []
  | '*' :: '*' :: rest => stripMarkers rest
  | c :: rest => c :: stripMarkers rest

/-- Drop every `'*'` character (with no native asterisks around, this is
marker deletion). -/
def removeStars (s : PyStr) : PyStr := s.filter (fun c => decide (c ≠ '*'))

/-- Normalized-score contribution of an optional lookup entry, as the claim
reads it: the chunk's per-list normalized score, 0 for an absent side. -/
def norm_contrib {α : Type} (o : Option (α × Frac × Nat)) : ℚ :=
  match o with
  | some x => Frac.toRat x.2.1
  | none => 0

/-- 0-based per-list rank of an optional lookup entry. -/
def rank_of {α : Type} (o : Option (α × Frac × Nat)) : Option Nat :=
  o.map (fun x => x.2.2)

/-- RRF value as the claim states it: the sum over the sides that returned
the chunk of `1 / (60 + rank + 1)` with 0-based ranks. -/
def rrf_claim (bm25_rank vector_rank : Option Nat) : ℚ :=
  (match bm25_rank with
   | some r => 1 / ((60 : ℚ) + (r : ℚ) + 1)
   | none => 0) +
  (match vector_rank with
   | some r => 1 / ((60 : ℚ) + (r : ℚ) + 1)
   | none => 0)

/-- Placeholder `HybridResult` for `headD` (never selected in the uses
below, which are on nonempty lists). -/
def junkHybrid : HybridResult :=
  ⟨[], [], none, none, none, Frac.zero, none, none, none, none, Frac.zero, Frac.zero, Frac.zero⟩

/-- Placeholder `Citation` for `headD` (never selected in the uses below). -/
def junkCitation : Citation :=
  ⟨[], none, none, none, [], Frac.zero, none, none, [], none, none, 0, Frac.zero⟩

/-- Scenario inputs from the spec: sparse `[(A, 0.8), (B, 0.6)]`. -/
def witBmA : BM25Result := ⟨"A".toList, "alpha text".toList, some 1, some "s1".toList, none, Frac.mk' 4 5⟩

def witBmB : BM25Result := ⟨"B".toList, "beta text".toList, some 2, some "s2".toList, none, Frac.mk' 3 5⟩

/-- Scenario inputs from the spec: dense `[(B, 0.9), (C, 0.7)]`. -/
def witVecB : VectorResult := ⟨"B".toList, "beta text".toList, some 2, some "s2".toList, none, Frac.mk' 9 10⟩

def witVecC : VectorResult := ⟨"C".toList, "gamma text".toList, some 3, some "s3".toList, none, Frac.mk' 7 10⟩

/-- First result of the ranked spec scenario (used to witness the fusion
formula). -/
def witTopResult : HybridResult :=
  (HybridRanker.rank (Frac.mk' 2 5) (Frac.mk' 3 5) [witBmA, witBmB] [witVecB, witVecC]
    10 (Frac.mk' 1 10)).headD junkHybrid

/-- BM25-only inputs refuting the set-preservation half of the diversity
claim: `A` and `B` share a section, `C` does not, and the scores are tuned
so that `B`'s diversity-adjusted score drops just below `C`'s. -/
def cexBmA : BM25Result := ⟨"A".toList, "content a".toList, none, some "s1".toList, none, Frac.ofNat 2⟩

def cexBmB : BM25Result := ⟨"B".toList, "content b".toList, none, some "s1".toList, none, Frac.mk' 10001 10000⟩

def cexBmC : BM25Result := ⟨"C".toList, "content c".toList, none, some "s2".toList, none, Frac.ofNat 1⟩

/-- Vector results refuting per-list min-max normalization of the dense
side: similarities 0.5 and 0.3. -/
def cexVecA : VectorResult := ⟨"VA".toList, "va text".toList, none, none, none, Frac.mk' 1 2⟩

def cexVecB : VectorResult := ⟨"VB".toList, "vb text".toList, none, none, none, Frac.mk' 3 10⟩

/-- Hybrid result whose chunk content is the empty string (nothing rules
this out: `HybridResult.content` is copied verbatim from a retriever row). -/
def cexEmptyContent : HybridResult :=
  ⟨"c1".toList, [], none, none, none, Frac.ofNat 1, none, none, none, none,
   Frac.zero, Frac.zero, Frac.zero⟩

/-- Chunk content of length 230 whose only query-term occurrence sits in
the final 30 characters (offsets 205..209): since
`(230 - 200) mod 50 = 30`, the last window start the search visits is 0,
and no visited window reaches the cluster. -/
def cexTailContent : PyStr := List.replicate 205 'x' ++ "zebra".toList ++ List.replicate 20 'y'

/-- Chunk content of length 400 with the only occurrence at offsets
375..379, inside the final 30 characters; `(400 - 200) mod 50 = 0`, so the
window starting at 200 is visited and wins. -/
def witTailContent : PyStr := List.replicate 375 'x' ++ "zebra".toList ++ List.replicate 20 'y'

/-- Hybrid results for the citation-contract witnesses (scores 0.9, 0.3,
0.8 in input order). -/
def witHyb1 : HybridResult :=
  ⟨"h1".toList, "Machine learning is powerful. It works well.".toList, some 1, none, none,
   Frac.mk' 9 10, none, none, none, none, Frac.zero, Frac.zero, Frac.zero⟩

def witHyb2 : HybridResult :=
  ⟨"h2".toList, "Neural networks are flexible models for data.".toList, some 2, none, none,
   Frac.mk' 3 10, none, none, none, none, Frac.zero, Frac.zero, Frac.zero⟩

def witHyb3 : HybridResult :=
  ⟨"h3".toList, "Deep learning handles perception tasks.".toList, some 3, none, none,
   Frac.mk' 4 5, none, none, none, none, Frac.zero, Frac.zero, Frac.zero⟩

/-- Backend outcome where pool creation raises (database unreachable and
`_pool` not yet initialized): `get_db_pool` re-raises outside the `try`. -/
def cexBm25PoolFail : BM25Retriever.Backend := ⟨Except.error (), Except.ok []⟩

/-- Same pool-creation failure for the vector retriever (embedding step
succeeded). -/
def cexVecPoolFail : VectorRetriever.Backend :=
  ⟨Except.ok (some [Frac.ofNat 1]), Except.error (), Except.ok []⟩

/-- Backend outcome where the tsvector query raises inside the `try`. -/
def witBm25QueryFail : BM25Retriever.Backend := ⟨Except.ok (some ()), Except.error ()⟩

/-- Backend outcome where the embedding call raises (caught, degraded). -/
def witVecEmbedFail : VectorRetriever.Backend :=
  ⟨Except.error (), Except.ok (some ()), Except.ok []⟩

/-! ### Lemmas: hybrid ranker pipeline -/

namespace HybridRanker

theorem normalize_bm25_fst (results : List BM25Result) :
    (normalize_bm25_scores results).map Prod.fst = results := by
  simp only [normalize_bm25_scores]
  split
  · next h => exact (List.isEmpty_iff.mp h).symm
  · split <;> · rw [List.map_map]; exact List.map_id results

theorem normalize_vector_fst (results : List VectorResult) :
    (normalize_vector_scores results).map Prod.fst = results := by
  simp only [normalize_vector_scores]
  split
  · next h => exact (List.isEmpty_iff.mp h).symm
  · split <;> · rw [List.map_map]; exact List.map_id results

theorem bm25_entries_keys (nb : List (BM25Result × Frac)) :
    (bm25_entries nb).map Prod.fst = nb.map (fun p => p.1.chunk_id) := by
  simp only [bm25_entries, List.map_map]
  have h : ((fun e : PyStr × (BM25Result × Frac × Nat) => e.1) ∘
      fun p : Nat × (BM25Result × Frac) => (p.2.1.chunk_id, p.2.1, p.2.2, p.1)) =
      (fun x : BM25Result × Frac => x.1.chunk_id) ∘ Prod.snd := rfl
  rw [h, ← List.map_map, List.enum_map_snd]

theorem vector_entries_keys (nv : List (VectorResult × Frac)) :
    (vector_entries nv).map Prod.fst = nv.map (fun p => p.1.chunk_id) := by
  simp only [vector_entries, List.map_map]
  have h : ((fun e : PyStr × (VectorResult × Frac × Nat) => e.1) ∘
      fun p : Nat × (VectorResult × Frac) => (p.2.1.chunk_id, p.2.1, p.2.2, p.1)) =
      (fun x : VectorResult × Frac => x.1.chunk_id) ∘ Prod.snd := rfl
  rw [h, ← List.map_map, List.enum_map_snd]

theorem bm25_map_keys (results : List BM25Result) :
    (bm25_entries (normalize_bm25_scores results)).map Prod.fst = results.map (·.chunk_id) := by
  rw [bm25_entries_keys]
  have h : (fun p : BM25Result × Frac => p.1.chunk_id) =
      (fun r : BM25Result => r.chunk_id) ∘ Prod.fst := rfl
  rw [h, ← List.map_map, normalize_bm25_fst]

theorem vector_map_keys (results : List VectorResult) :
    (vector_entries (normalize_vector_scores results)).map Prod.fst = results.map (·.chunk_id) := by
  rw [vector_entries_keys]
  have h : (fun p : VectorResult × Frac => p.1.chunk_id) =
      (fun r : VectorResult => r.chunk_id) ∘ Prod.fst := rfl
  rw [h, ← List.map_map, normalize_vector_fst]

theorem mem_uniqKeysAux (k : PyStr) :
    ∀ (l seen : List PyStr), k ∈ uniqKeysAux seen l ↔ k ∈ l ∧ k ∉ seen := by
  intro l
  induction l with
  | nil => intro seen; simp [uniqKeysAux]
  | cons a as ih =>
    intro seen
    rw [uniqKeysAux]
    by_cases h : a ∈ seen
    · rw [if_pos h, ih]
      constructor
      · rintro ⟨hk, hs⟩; exact ⟨List.mem_cons_of_mem _ hk, hs⟩
      · rintro ⟨hmem, hs⟩
        rcases List.mem_cons.mp hmem with rfl | hk
        · exact absurd h hs
        · exact ⟨hk, hs⟩
    · rw [if_neg h]
      constructor
      · intro hmem
        rcases List.mem_cons.mp hmem with rfl | hmem2
        · exact ⟨List.mem_cons_self _ _, h⟩
        · obtain ⟨h1, h2⟩ := (ih (a :: seen)).mp hmem2
          exact ⟨List.mem_cons_of_mem _ h1, fun hc => h2 (List.mem_cons_of_mem _ hc)⟩
      · rintro ⟨hmem, hs⟩
        rcases List.mem_cons.mp hmem with rfl | hmem2
        · exact List.mem_cons_self _ _
        · by_cases hk : k = a
          · subst hk; exact List.mem_cons_self _ _
          · refine List.mem_cons_of_mem _ ((ih (a :: seen)).mpr ⟨hmem2, fun hc => ?_⟩)
            rcases List.mem_cons.mp hc with h1 | h1
            · exact hk h1
            · exact hs h1

theorem nodup_uniqKeysAux : ∀ (l seen : List PyStr), (uniqKeysAux seen l).Nodup := by
  intro l
  induction l with
  | nil => intro seen; simp [uniqKeysAux]
  | cons a as ih =>
    intro seen
    rw [uniqKeysAux]
    by_cases h : a ∈ seen
    · rw [if_pos h]; exact ih seen
    · rw [if_neg h, List.nodup_cons]
      refine ⟨fun hmem => ?_, ih (a :: seen)⟩
      exact ((mem_uniqKeysAux a as (a :: seen)).mp hmem).2 (List.mem_cons_self a seen)

theorem buildResult_chunk_id (w v : Frac) (bd : Option (BM25Result × Frac × Nat))
    (vd : Option (VectorResult × Frac × Nat)) (cid : PyStr) :
    (buildResult w v bd vd cid).chunk_id = cid := by
  rcases bd with _ | x <;> rcases vd with _ | y <;> rfl

theorem fused_results_map_chunk_id (w v : Frac) (b : List BM25Result) (vv : List VectorResult) :
    (fused_results w v b vv).map (·.chunk_id) = union_chunk_ids b vv := by
  simp only [fused_results, List.map_map, union_chunk_ids, bm25_map_keys, vector_map_keys]
  have h : ((fun r : HybridResult => r.chunk_id) ∘
      fun cid => buildResult w v (bm25_lookup b cid) (vector_lookup vv cid) cid) = id := by
    funext cid
    exact buildResult_chunk_id w v _ _ cid
  rw [h, List.map_id]

theorem mem_union_chunk_ids (b : List BM25Result) (vv : List VectorResult) (cid : PyStr) :
    cid ∈ union_chunk_ids b vv ↔
      cid ∈ b.map (·.chunk_id) ∨ cid ∈ vv.map (·.chunk_id) := by
  rw [union_chunk_ids, mem_uniqKeysAux]
  simp

theorem nodup_union_chunk_ids (b : List BM25Result) (vv : List VectorResult) :
    (union_chunk_ids b vv).Nodup :=
  nodup_uniqKeysAux _ _

theorem diversityLoop_fst (d : Frac) :
    ∀ (l : List HybridResult) (secs : PyStr → Nat) (pages : Int → Nat),
      (diversityLoop d l secs pages).map Prod.fst = l := by
  intro l
  induction l with
  | nil => intro secs pages; rfl
  | cons r rest ih =>
    intro secs pages
    simp only [diversityLoop, List.map_cons, ih]

theorem apply_diversity_filter_perm (d : Frac) (results : List HybridResult) :
    (apply_diversity_filter d results).Perm results := by
  rw [apply_diversity_filter]
  split
  · exact List.Perm.refl _
  · refine List.Perm.trans (List.Perm.map _ (List.perm_insertionSort _ _)) ?_
    rw [diversityLoop_fst]

theorem rank_take_perm (w v : Frac) (b : List BM25Result) (vv : List VectorResult)
    (limit : Nat) (d : Frac) :
    ∃ l : List HybridResult,
      rank w v b vv limit d = l.take limit ∧ l.Perm (fused_results w v b vv) := by
  rw [rank]
  by_cases h : b.isEmpty ∧ vv.isEmpty
  · rw [if_pos h]
    obtain ⟨hb, hv⟩ := h
    rw [List.isEmpty_iff.mp hb, List.isEmpty_iff.mp hv]
    exact ⟨[], List.take_nil.symm, List.Perm.refl _⟩
  · rw [if_neg h]
    by_cases hd : Frac.lt Frac.zero d
    · rw [if_pos hd]
      exact ⟨_, rfl, (apply_diversity_filter_perm d _).trans (List.perm_insertionSort _ _)⟩
    · rw [if_neg hd]
      exact ⟨_, rfl, List.perm_insertionSort _ _⟩

theorem fused_length (w v : Frac) (b : List BM25Result) (vv : List VectorResult) :
    (fused_results w v b vv).length = (union_chunk_ids b vv).length := by
  rw [← fused_results_map_chunk_id w v b vv, List.length_map]

theorem mem_rank (w v : Frac) (b : List BM25Result) (vv : List VectorResult)
    (limit : Nat) (d : Frac) (r : HybridResult) (hr : r ∈ rank w v b vv limit d) :
    ∃ cid, r = buildResult w v (bm25_lookup b cid) (vector_lookup vv cid) cid := by
  obtain ⟨l, hl, hperm⟩ := rank_take_perm w v b vv limit d
  rw [hl] at hr
  have h1 : r ∈ l := (List.take_sublist _ _).subset hr
  have h2 : r ∈ fused_results w v b vv := (hperm.mem_iff).mp h1
  simp only [fused_results, List.mem_map] at h2
  obtain ⟨cid, _, hcid⟩ := h2
  exact ⟨cid, hcid.symm⟩

theorem toRat_calculate_rrf (br vr : Option Nat) :
    Frac.toRat (calculate_rrf_score br vr) = rrf_claim br vr := by
  have hmk : ∀ k : Nat, Frac.toRat (Frac.mk' 1 (60 + k + 1)) = 1 / ((60 : ℚ) + (k : ℚ) + 1) := by
    intro k
    rw [Frac.toRat_mk' _ _ (by omega)]
    push_cast
    ring
  rcases br with _ | r1 <;> rcases vr with _ | r2 <;>
    simp only [calculate_rrf_score, rrf_claim, Frac.toRat_add, Frac.toRat_zero, hmk]

end HybridRanker

/-! ### Claim C1: union completeness of `rank` -/

/-- C1.  Union completeness of `rank`: for every call, the chunk ids of the
returned `HybridResult`s are pairwise distinct and form a subset of the
union of the two input lists' chunk ids; and whenever `limit` is at least
the number of distinct chunk ids in that union (the length of the
duplicate-free `union_chunk_ids`), the returned chunk ids are exactly that
union — a result exists for every chunk id present in either input list,
with no duplicates and no omissions. -/
theorem rank_union_completeness :
    ∀ (w v : Frac) (b : List BM25Result) (vv : List VectorResult) (limit : Nat) (d : Frac),
      ((HybridRanker.rank w v b vv limit d).map (·.chunk_id)).Nodup ∧
      (∀ cid ∈ (HybridRanker.rank w v b vv limit d).map (·.chunk_id),
        cid ∈ b.map (·.chunk_id) ∨ cid ∈ vv.map (·.chunk_id)) ∧
      ((HybridRanker.union_chunk_ids b vv).length ≤ limit →
        ∀ cid, cid ∈ (HybridRanker.rank w v b vv limit d).map (·.chunk_id) ↔
          (cid ∈ b.map (·.chunk_id) ∨ cid ∈ vv.map (·.chunk_id))) := by
  intro w v b vv limit d
  obtain ⟨l, hl, hperm⟩ := HybridRanker.rank_take_perm w v b vv limit d
  have hids : (l.map (·.chunk_id)).Perm (HybridRanker.union_chunk_ids b vv) := by
    have h := hperm.map (·.chunk_id)
    rwa [HybridRanker.fused_results_map_chunk_id] at h
  have hrank_ids : (HybridRanker.rank w v b vv limit d).map (·.chunk_id) =
      (l.map (·.chunk_id)).take limit := by
    rw [hl, List.map_take]
  have hnodupl : (l.map (·.chunk_id)).Nodup :=
    hids.nodup_iff.mpr (HybridRanker.nodup_union_chunk_ids b vv)
  refine ⟨?_, ?_, ?_⟩
  · rw [hrank_ids]
    exact (List.take_sublist _ _).nodup hnodupl
  · intro cid hcid
    rw [hrank_ids] at hcid
    have h1 : cid ∈ l.map (·.chunk_id) := (List.take_sublist _ _).subset hcid
    exact (HybridRanker.mem_union_chunk_ids b vv cid).mp (hids.mem_iff.mp h1)
  · intro hlim cid
    have hlen : (l.map (·.chunk_id)).length = (HybridRanker.union_chunk_ids b vv).length :=
      hids.length_eq
    have htake : (l.map (·.chunk_id)).take limit = l.map (·.chunk_id) :=
      List.take_of_length_le (by rw [hlen]; exact hlim)
    rw [hrank_ids, htake, hids.mem_iff, HybridRanker.mem_union_chunk_ids]

/-- Witness for C1 at the spec's scenario (sparse `[(A,0.8),(B,0.6)]`,
dense `[(B,0.9),(C,0.7)]`, limit 10): `C` is ranked. -/
theorem rank_union_completeness_witness :
    "C".toList ∈ (HybridRanker.rank (Frac.mk' 2 5) (Frac.mk' 3 5) [witBmA, witBmB]
      [witVecB, witVecC] 10 (Frac.mk' 1 10)).map (·.chunk_id) := by
  have h := rank_union_completeness (Frac.mk' 2 5) (Frac.mk' 3 5) [witBmA, witBmB]
    [witVecB, witVecC] 10 (Frac.mk' 1 10)
  exact (h.2.2 (by decide) "C".toList).mpr (by decide)

/-! ### Claim C7: diversity never drops results -/

/-- C7 (amended).  The diversity filter preserves the number of results:
for all inputs, any `limit` and any `diversity_factor`, `rank` returns
exactly as many results as the same call with `diversity_factor = 0`; and
when `limit` covers the whole union of chunk ids, both calls return the
same set of chunk ids.  (When `limit` truncates, the re-ordering done by
the diversity filter can change *which* chunk ids survive truncation — see
the counterexample — so set equality holds only under the `limit`
hypothesis.) -/
theorem rank_diversity_preserves_results :
    ∀ (w v : Frac) (b : List BM25Result) (vv : List VectorResult) (limit : Nat) (d : Frac),
      (HybridRanker.rank w v b vv limit d).length =
        (HybridRanker.rank w v b vv limit Frac.zero).length ∧
      ((HybridRanker.union_chunk_ids b vv).length ≤ limit →
        ∀ cid, cid ∈ (HybridRanker.rank w v b vv limit d).map (·.chunk_id) ↔
          cid ∈ (HybridRanker.rank w v b vv limit Frac.zero).map (·.chunk_id)) := by
  intro w v b vv limit d
  obtain ⟨l1, hl1, hp1⟩ := HybridRanker.rank_take_perm w v b vv limit d
  obtain ⟨l2, hl2, hp2⟩ := HybridRanker.rank_take_perm w v b vv limit Frac.zero
  have hids1 : (l1.map (·.chunk_id)).Perm (HybridRanker.union_chunk_ids b vv) := by
    have h := hp1.map (·.chunk_id)
    rwa [HybridRanker.fused_results_map_chunk_id] at h
  have hids2 : (l2.map (·.chunk_id)).Perm (HybridRanker.union_chunk_ids b vv) := by
    have h := hp2.map (·.chunk_id)
    rwa [HybridRanker.fused_results_map_chunk_id] at h
  constructor
  · rw [hl1, hl2, List.length_take, List.length_take, hp1.length_eq, hp2.length_eq]
  · intro hlim cid
    have htake1 : (l1.map (·.chunk_id)).take limit = l1.map (·.chunk_id) :=
      List.take_of_length_le (by rw [hids1.length_eq]; exact hlim)
    have htake2 : (l2.map (·.chunk_id)).take limit = l2.map (·.chunk_id) :=
      List.take_of_length_le (by rw [hids2.length_eq]; exact hlim)
    rw [hl1, hl2, List.map_take, List.map_take, htake1, htake2,
      hids1.mem_iff, hids2.mem_iff]

/-- Counterexample to C7 as stated: with `A`, `B` in one section and `C` in
another, scores tuned so that the diversity discount demotes `B` below `C`,
`rank` with `limit = 2` returns chunk ids `{A, C}` for
`diversity_factor = 1` but `{A, B}` for `diversity_factor = 0` — the
lengths agree but the sets differ. -/
theorem rank_diversity_counterexample :
    (HybridRanker.rank (Frac.mk' 2 5) (Frac.mk' 3 5) [cexBmA, cexBmB, cexBmC] [] 2
      (Frac.ofNat 1)).map (·.chunk_id) = ["A".toList, "C".toList] ∧
    (HybridRanker.rank (Frac.mk' 2 5) (Frac.mk' 3 5) [cexBmA, cexBmB, cexBmC] [] 2
      Frac.zero).map (·.chunk_id) = ["A".toList, "B".toList] ∧
    "C".toList ∈ (HybridRanker.rank (Frac.mk' 2 5) (Frac.mk' 3 5) [cexBmA, cexBmB, cexBmC] [] 2
      (Frac.ofNat 1)).map (·.chunk_id) ∧
    "C".toList ∉ (HybridRanker.rank (Frac.mk' 2 5) (Frac.mk' 3 5) [cexBmA, cexBmB, cexBmC] [] 2
      Frac.zero).map (·.chunk_id) := by
  decide

/-- Witness for the amended C7 at the spec scenario with `limit = 10`. -/
theorem rank_diversity_preserves_results_witness :
    (HybridRanker.rank (Frac.mk' 2 5) (Frac.mk' 3 5) [witBmA, witBmB] [witVecB, witVecC]
      10 (Frac.mk' 1 10)).length =
      (HybridRanker.rank (Frac.mk' 2 5) (Frac.mk' 3 5) [witBmA, witBmB] [witVecB, witVecC]
        10 Frac.zero).length ∧
    ("B".toList ∈ (HybridRanker.rank (Frac.mk' 2 5) (Frac.mk' 3 5) [witBmA, witBmB]
        [witVecB, witVecC] 10 (Frac.mk' 1 10)).map (·.chunk_id) ↔
      "B".toList ∈ (HybridRanker.rank (Frac.mk' 2 5) (Frac.mk' 3 5) [witBmA, witBmB]
        [witVecB, witVecC] 10 Frac.zero).map (·.chunk_id)) := by
  have h := rank_diversity_preserves_results (Frac.mk' 2 5) (Frac.mk' 3 5) [witBmA, witBmB]
    [witVecB, witVecC] 10 (Frac.mk' 1 10)
  exact ⟨h.1, h.2 (by decide) "B".toList⟩

/-! ### Claim C2: fusion formula -/

/-- C2.  Fusion formula: every chunk in `rank`'s output has
`hybrid_score = 0.8 * (bm25_weight * bm25_norm + vector_weight * vector_norm)
+ 0.2 * rrf`, where the norms are the chunk's per-list normalized scores (0
for an absent side) and `rrf` sums `1 / (60 + rank + 1)` over the sides
that returned the chunk, with 0-based per-list ranks; the stored
`rank_bm25` / `rank_vector` are the corresponding 1-based positions,
`none` for an absent side. -/
theorem rank_fusion_formula :
    ∀ (w v : Frac) (b : List BM25Result) (vv : List VectorResult) (limit : Nat) (d : Frac)
      (r : HybridResult), r ∈ HybridRanker.rank w v b vv limit d →
      Frac.toRat r.hybrid_score =
        (0.8 : ℚ) * (Frac.toRat w * norm_contrib (HybridRanker.bm25_lookup b r.chunk_id) +
          Frac.toRat v * norm_contrib (HybridRanker.vector_lookup vv r.chunk_id)) +
        (0.2 : ℚ) * rrf_claim (rank_of (HybridRanker.bm25_lookup b r.chunk_id))
          (rank_of (HybridRanker.vector_lookup vv r.chunk_id)) ∧
      r.rank_bm25 = (rank_of (HybridRanker.bm25_lookup b r.chunk_id)).map (fun k => k + 1) ∧
      r.rank_vector = (rank_of (HybridRanker.vector_lookup vv r.chunk_id)).map (fun k => k + 1) := by
  intro w v b vv limit d r hr
  obtain ⟨cid, hcid⟩ := HybridRanker.mem_rank w v b vv limit d r hr
  have h45 : Frac.toRat (Frac.mk' 4 5) = (0.8 : ℚ) := by
    rw [Frac.toRat_mk' _ _ (by omega)]; norm_num
  have h15 : Frac.toRat (Frac.mk' 1 5) = (0.2 : ℚ) := by
    rw [Frac.toRat_mk' _ _ (by omega)]; norm_num
  subst hcid
  rw [HybridRanker.buildResult_chunk_id]
  rcases hbd : HybridRanker.bm25_lookup b cid with _ | x <;>
    rcases hvd : HybridRanker.vector_lookup vv cid with _ | y <;>
      refine ⟨?_, ?_, ?_⟩ <;>
        simp only [HybridRanker.buildResult, norm_contrib, rank_of,
          Option.map_none', Option.map_some', Frac.toRat_add, Frac.toRat_mul, h45, h15,
          HybridRanker.toRat_calculate_rrf, Frac.toRat_zero]

/-- Witness for C2: the top-ranked result of the spec scenario satisfies
the fusion formula and rank bookkeeping. -/
theorem rank_fusion_formula_witness :
    Frac.toRat witTopResult.hybrid_score =
      (0.8 : ℚ) * (Frac.toRat (Frac.mk' 2 5) *
          norm_contrib (HybridRanker.bm25_lookup [witBmA, witBmB] witTopResult.chunk_id) +
        Frac.toRat (Frac.mk' 3 5) *
          norm_contrib (HybridRanker.vector_lookup [witVecB, witVecC] witTopResult.chunk_id)) +
      (0.2 : ℚ) * rrf_claim
        (rank_of (HybridRanker.bm25_lookup [witBmA, witBmB] witTopResult.chunk_id))
        (rank_of (HybridRanker.vector_lookup [witVecB, witVecC] witTopResult.chunk_id)) ∧
    witTopResult.rank_bm25 =
      (rank_of (HybridRanker.bm25_lookup [witBmA, witBmB] witTopResult.chunk_id)).map
        (fun k => k + 1) ∧
    witTopResult.rank_vector =
      (rank_of (HybridRanker.vector_lookup [witVecB, witVecC] witTopResult.chunk_id)).map
        (fun k => k + 1) :=
  rank_fusion_formula (Frac.mk' 2 5) (Frac.mk' 3 5) [witBmA, witBmB] [witVecB, witVecC]
    10 (Frac.mk' 1 10) witTopResult (by decide)

/-! ### Claim C3: per-list normalization -/

theorem le_foldl_fmax : ∀ (l : List Frac) (a : Frac),
    Frac.toRat a ≤ Frac.toRat (l.foldl Frac.fmax a) := by
  intro l
  induction l with
  | nil => intro a; exact le_refl _
  | cons c cs ih =>
    intro a
    refine le_trans ?_ (ih (Frac.fmax a c))
    rw [Frac.toRat_fmax]
    exact le_max_left _ _

theorem mem_le_foldl_fmax : ∀ (l : List Frac) (a x : Frac), x ∈ l →
    Frac.toRat x ≤ Frac.toRat (l.foldl Frac.fmax a) := by
  intro l
  induction l with
  | nil => intro a x hx; cases hx
  | cons c cs ih =>
    intro a x hx
    rcases List.mem_cons.mp hx with rfl | hx2
    · exact le_trans (by rw [Frac.toRat_fmax]; exact le_max_right _ _) (le_foldl_fmax cs _)
    · exact ih _ x hx2

theorem foldl_fmin_le : ∀ (l : List Frac) (a : Frac),
    Frac.toRat (l.foldl Frac.fmin a) ≤ Frac.toRat a := by
  intro l
  induction l with
  | nil => intro a; exact le_refl _
  | cons c cs ih =>
    intro a
    refine le_trans (ih (Frac.fmin a c)) ?_
    rw [Frac.toRat_fmin]
    exact min_le_left _ _

theorem foldl_fmin_le_mem : ∀ (l : List Frac) (a x : Frac), x ∈ l →
    Frac.toRat (l.foldl Frac.fmin a) ≤ Frac.toRat x := by
  intro l
  induction l with
  | nil => intro a x hx; cases hx
  | cons c cs ih =>
    intro a x hx
    rcases List.mem_cons.mp hx with rfl | hx2
    · exact le_trans (foldl_fmin_le cs _) (by rw [Frac.toRat_fmin]; exact min_le_right _ _)
    · exact ih _ x hx2

theorem listMax_ge (l : List Frac) (x : Frac) (hx : x ∈ l) :
    Frac.toRat x ≤ Frac.toRat (listMax l) := by
  cases l with
  | nil => cases hx
  | cons c cs =>
    rcases List.mem_cons.mp hx with rfl | hx2
    · exact le_foldl_fmax cs x
    · exact mem_le_foldl_fmax cs c x hx2

theorem listMin_le (l : List Frac) (x : Frac) (hx : x ∈ l) :
    Frac.toRat (listMin l) ≤ Frac.toRat x := by
  cases l with
  | nil => cases hx
  | cons c cs =>
    rcases List.mem_cons.mp hx with rfl | hx2
    · exact foldl_fmin_le cs x
    · exact foldl_fmin_le_mem cs c x hx2

/-- C3 (amended).  Per-list normalization: the BM25 list is min-max
normalized by its own min/max, with every score mapped to 1 when min = max
(including singletons); the vector list is mapped to 1 when min = max, but
in the general case each similarity is *clamped* to `[0, 1]` (the code
computes the min/max and then does not use them) rather than min-max
normalized.  In all cases every normalized score lies in `[0, 1]`. -/
theorem normalize_scores_bounds :
    ∀ (bs : List BM25Result) (vs : List VectorResult),
      (bs ≠ [] → Frac.equiv (listMax (bs.map (·.score))) (listMin (bs.map (·.score))) →
        ∀ p ∈ HybridRanker.normalize_bm25_scores bs, Frac.toRat p.2 = 1) ∧
      (bs ≠ [] → ¬ Frac.equiv (listMax (bs.map (·.score))) (listMin (bs.map (·.score))) →
        ∀ p ∈ HybridRanker.normalize_bm25_scores bs,
          Frac.toRat p.2 =
            (Frac.toRat p.1.score - Frac.toRat (listMin (bs.map (·.score)))) /
              (Frac.toRat (listMax (bs.map (·.score))) -
                Frac.toRat (listMin (bs.map (·.score))))) ∧
      (∀ p ∈ HybridRanker.normalize_bm25_scores bs,
        0 ≤ Frac.toRat p.2 ∧ Frac.toRat p.2 ≤ 1) ∧
      (vs ≠ [] →
        Frac.equiv (listMax (vs.map (·.similarity_score)))
          (listMin (vs.map (·.similarity_score))) →
        ∀ p ∈ HybridRanker.normalize_vector_scores vs, Frac.toRat p.2 = 1) ∧
      (vs ≠ [] →
        ¬ Frac.equiv (listMax (vs.map (·.similarity_score)))
          (listMin (vs.map (·.similarity_score))) →
        ∀ p ∈ HybridRanker.normalize_vector_scores vs,
          Frac.toRat p.2 = max 0 (min 1 (Frac.toRat p.1.similarity_score))) ∧
      (∀ p ∈ HybridRanker.normalize_vector_scores vs,
        0 ≤ Frac.toRat p.2 ∧ Frac.toRat p.2 ≤ 1) := by
  intro bs vs
  refine ⟨?_, ?_, ?_, ?_, ?_, ?_⟩
  · intro hne hequiv p hp
    simp only [HybridRanker.normalize_bm25_scores,
      if_neg (fun h => hne (List.isEmpty_iff.mp h)), if_pos hequiv, List.mem_map] at hp
    obtain ⟨r, _, hr⟩ := hp
    rw [← hr]
    simp
  · intro hne hequiv p hp
    simp only [HybridRanker.normalize_bm25_scores,
      if_neg (fun h => hne (List.isEmpty_iff.mp h)), if_neg hequiv, List.mem_map] at hp
    obtain ⟨r, _, hr⟩ := hp
    rw [← hr]
    simp
  · intro p hp
    by_cases hne : bs.isEmpty
    · simp only [HybridRanker.normalize_bm25_scores, if_pos hne] at hp
      cases hp
    · by_cases hequiv :
        Frac.equiv (listMax (bs.map (·.score))) (listMin (bs.map (·.score)))
      · simp only [HybridRanker.normalize_bm25_scores, if_neg hne, if_pos hequiv,
          List.mem_map] at hp
        obtain ⟨r, _, hr⟩ := hp
        rw [← hr]
        simp
      · simp only [HybridRanker.normalize_bm25_scores, if_neg hne, if_neg hequiv,
          List.mem_map] at hp
        obtain ⟨r, hrmem, hr⟩ := hp
        have hsmem : r.score ∈ bs.map (·.score) := List.mem_map_of_mem _ hrmem
        have hmle : Frac.toRat (listMin (bs.map (·.score))) ≤ Frac.toRat r.score :=
          listMin_le _ _ hsmem
        have hleM : Frac.toRat r.score ≤ Frac.toRat (listMax (bs.map (·.score))) :=
          listMax_ge _ _ hsmem
        have hlt : Frac.toRat (listMin (bs.map (·.score))) <
            Frac.toRat (listMax (bs.map (·.score))) :=
          lt_of_le_of_ne (le_trans hmle hleM) (fun h => hequiv h.symm)
        rw [← hr]
        constructor
        · simp only [Frac.toRat_div, Frac.toRat_sub]
          exact div_nonneg (by linarith) (by linarith)
        · simp only [Frac.toRat_div, Frac.toRat_sub]
          exact (div_le_one (by linarith)).mpr (by linarith)
  · intro hne hequiv p hp
    simp only [HybridRanker.normalize_vector_scores,
      if_neg (fun h => hne (List.isEmpty_iff.mp h)), if_pos hequiv, List.mem_map] at hp
    obtain ⟨r, _, hr⟩ := hp
    rw [← hr]
    simp
  · intro hne hequiv p hp
    simp only [HybridRanker.normalize_vector_scores,
      if_neg (fun h => hne (List.isEmpty_iff.mp h)), if_neg hequiv, List.mem_map] at hp
    obtain ⟨r, _, hr⟩ := hp
    rw [← hr]
    simp
  · intro p hp
    by_cases hne : vs.isEmpty
    · simp only [HybridRanker.normalize_vector_scores, if_pos hne] at hp
      cases hp
    · by_cases hequiv : Frac.equiv (listMax (vs.map (·.similarity_score)))
        (listMin (vs.map (·.similarity_score)))
      · simp only [HybridRanker.normalize_vector_scores, if_neg hne, if_pos hequiv,
          List.mem_map] at hp
        obtain ⟨r, _, hr⟩ := hp
        rw [← hr]
        simp
      · simp only [HybridRanker.normalize_vector_scores, if_neg hne, if_neg hequiv,
          List.mem_map] at hp
        obtain ⟨r, _, hr⟩ := hp
        rw [← hr]
        constructor
        · simp only [Frac.toRat_fmax, Frac.toRat_fmin, Frac.toRat_zero, Frac.toRat_ofNat]
          exact le_max_left _ _
        · simp only [Frac.toRat_fmax, Frac.toRat_fmin, Frac.toRat_zero, Frac.toRat_ofNat]
          push_cast
          exact max_le (by norm_num) (min_le_left _ _)

/-- Counterexample to C3 as stated: for the dense list with similarities
`[0.5, 0.3]`, the code's normalized score for the second result is the raw
similarity 0.3 (clamping), not the min-max value
`(0.3 - 0.3) / (0.5 - 0.3) = 0`. -/
theorem normalize_vector_not_minmax :
    ¬ Frac.equiv
      (((HybridRanker.normalize_vector_scores [cexVecA, cexVecB]).map Prod.snd).getD 1 Frac.zero)
      (Frac.div (Frac.sub cexVecB.similarity_score
          (listMin ([cexVecA, cexVecB].map (·.similarity_score))))
        (Frac.sub (listMax ([cexVecA, cexVecB].map (·.similarity_score)))
          (listMin ([cexVecA, cexVecB].map (·.similarity_score))))) ∧
    Frac.equiv
      (((HybridRanker.normalize_vector_scores [cexVecA, cexVecB]).map Prod.snd).getD 1 Frac.zero)
      cexVecB.similarity_score := by
  decide

/-- Witness for the amended C3: the second normalized vector score of the
`[0.5, 0.3]` list is the clamp of its raw similarity, and lies in
`[0, 1]`. -/
theorem normalize_scores_bounds_witness :
    Frac.toRat (cexVecB, Frac.mk' 3 10).2 =
      max 0 (min 1 (Frac.toRat (cexVecB, Frac.mk' 3 10).1.similarity_score)) ∧
    (0 ≤ Frac.toRat (cexVecB, Frac.mk' 3 10).2 ∧ Frac.toRat (cexVecB, Frac.mk' 3 10).2 ≤ 1) :=
  ⟨(normalize_scores_bounds [] [cexVecA, cexVecB]).2.2.2.2.1 (by decide) (by decide)
      (cexVecB, Frac.mk' 3 10) (by decide),
   (normalize_scores_bounds [] [cexVecA, cexVecB]).2.2.2.2.2
      (cexVecB, Frac.mk' 3 10) (by decide)⟩

/-! ### Claim C4: graceful degradation of the retrievers -/

/-- C4.  In both retrievers a pool-creation failure (database unreachable
with the pool not yet created) is raised by `get_db_pool()` *outside* the
`try` block and propagates out of `retrieve`, contradicting the
degrade-to-empty claim; failures of the query itself, or of the embedding
step, are caught and degrade to `[]` as the claim describes. -/
theorem retrieve_pool_failure_propagates :
    BM25Retriever.retrieve cexBm25PoolFail = Except.error () ∧
    VectorRetriever.retrieve cexVecPoolFail = Except.error () ∧
    BM25Retriever.retrieve witBm25QueryFail = Except.ok [] ∧
    VectorRetriever.retrieve witVecEmbedFail = Except.ok [] :=
  ⟨rfl, rfl, rfl, rfl⟩

/-! ### Claims C8 and C10: the `extract_citations` contract -/

namespace CitationExtractor

theorem mkCitation_chunk_id (maxLen : Nat) (terms : List PyStr) (r : HybridResult) :
    (mkCitation maxLen terms r).chunk_id = r.chunk_id := rfl

theorem mkCitation_relevance (maxLen : Nat) (terms : List PyStr) (r : HybridResult) :
    (mkCitation maxLen terms r).relevance_score = r.hybrid_score := rfl

theorem collectLoop_eq (maxLen : Nat) (terms : List PyStr) (maxCit : Nat) (minRel : Frac) :
    ∀ (l : List HybridResult) (count : Nat),
      collectLoop maxLen terms maxCit minRel l count =
        ((l.filter (fun r => decide (¬ Frac.lt r.hybrid_score minRel))).take
          (maxCit - count)).map (mkCitation maxLen terms) := by
  intro l
  induction l with
  | nil => intro count; simp [collectLoop]
  | cons r rest ih =>
    intro count
    rw [collectLoop]
    by_cases h1 : maxCit ≤ count
    · rw [if_pos h1, Nat.sub_eq_zero_of_le h1]
      simp
    · rw [if_neg h1]
      by_cases h2 : Frac.lt r.hybrid_score minRel
      · rw [if_pos h2, List.filter_cons, if_neg (by simp [h2]), ih]
      · rw [if_neg h2, List.filter_cons, if_pos (by simp [h2]), ih (count + 1)]
        have hc : maxCit - count = (maxCit - (count + 1)) + 1 := by omega
        rw [hc, List.take_succ_cons, List.map_cons]

theorem collectLoop_mem (maxLen : Nat) (terms : List PyStr) (maxCit : Nat) (minRel : Frac) :
    ∀ (l : List HybridResult) (count : Nat) (c : Citation),
      c ∈ collectLoop maxLen terms maxCit minRel l count →
      ∃ r ∈ l, c = mkCitation maxLen terms r ∧ ¬ Frac.lt r.hybrid_score minRel := by
  intro l
  induction l with
  | nil => intro count c hc; simp [collectLoop] at hc
  | cons r rest ih =>
    intro count c hc
    rw [collectLoop] at hc
    by_cases h1 : maxCit ≤ count
    · rw [if_pos h1] at hc; cases hc
    · rw [if_neg h1] at hc
      by_cases h2 : Frac.lt r.hybrid_score minRel
      · rw [if_pos h2] at hc
        obtain ⟨r2, hr2, hcr⟩ := ih count c hc
        exact ⟨r2, List.mem_cons_of_mem _ hr2, hcr⟩
      · rw [if_neg h2] at hc
        rcases List.mem_cons.mp hc with rfl | hc2
        · exact ⟨r, List.mem_cons_self _ _, rfl, h2⟩
        · obtain ⟨r2, hr2, hcr⟩ := ih (count + 1) c hc2
          exact ⟨r2, List.mem_cons_of_mem _ hr2, hcr⟩

end CitationExtractor

/-- C8.  Contract of `extract_citations`: the returned list is ordered by
`relevance_score` descending, has length at most `max_citations`, and every
returned citation has `relevance_score ≥ min_relevance`; an empty result
list, or one in which every `hybrid_score` is below `min_relevance`, yields
`[]` without error. -/
theorem extract_citations_contract :
    ∀ (maxLen : Nat) (q : PyStr) (results : List HybridResult) (maxCit : Nat) (minRel : Frac),
      List.Pairwise (fun a b : Citation => Frac.le b.relevance_score a.relevance_score)
        (CitationExtractor.extract_citations maxLen q results maxCit minRel) ∧
      (CitationExtractor.extract_citations maxLen q results maxCit minRel).length ≤ maxCit ∧
      (∀ c ∈ CitationExtractor.extract_citations maxLen q results maxCit minRel,
        Frac.le minRel c.relevance_score) ∧
      (results = [] → CitationExtractor.extract_citations maxLen q results maxCit minRel = []) ∧
      ((∀ r ∈ results, Frac.lt r.hybrid_score minRel) →
        CitationExtractor.extract_citations maxLen q results maxCit minRel = []) := by
  intro maxLen q results maxCit minRel
  by_cases hres : results.isEmpty
  · rw [List.isEmpty_iff.mp hres]
    simp [CitationExtractor.extract_citations]
  · haveI hT : IsTotal Citation
        (fun a b => Frac.le b.relevance_score a.relevance_score) :=
      ⟨fun a b => le_total _ _⟩
    haveI hTr : IsTrans Citation
        (fun a b => Frac.le b.relevance_score a.relevance_score) :=
      ⟨fun a b c hab hbc => le_trans hbc hab⟩
    have hunfold : CitationExtractor.extract_citations maxLen q results maxCit minRel =
        (List.insertionSort (fun a b : Citation => Frac.le b.relevance_score a.relevance_score)
          (CitationExtractor.collectLoop maxLen (CitationExtractor.extract_query_terms q)
            maxCit minRel results 0)).take maxCit := by
      simp only [CitationExtractor.extract_citations, if_neg hres]
    refine ⟨?_, ?_, ?_, ?_, ?_⟩
    · rw [hunfold]
      exact List.Pairwise.sublist (List.take_sublist _ _)
        (List.sorted_insertionSort _ _)
    · rw [hunfold]
      exact List.length_take_le _ _
    · intro c hc
      rw [hunfold] at hc
      have h1 : c ∈ List.insertionSort
          (fun a b : Citation => Frac.le b.relevance_score a.relevance_score)
          (CitationExtractor.collectLoop maxLen (CitationExtractor.extract_query_terms q)
            maxCit minRel results 0) := (List.take_sublist _ _).subset hc
      have h2 := (List.perm_insertionSort _ _).mem_iff.mp h1
      obtain ⟨r, _, hcr, hrel⟩ :=
        CitationExtractor.collectLoop_mem maxLen _ maxCit minRel results 0 c h2
      rw [hcr, CitationExtractor.mkCitation_relevance]
      exact not_lt.mp hrel
    · intro h
      subst h
      simp at hres
    · intro hall
      have hnil : CitationExtractor.collectLoop maxLen
          (CitationExtractor.extract_query_terms q) maxCit minRel results 0 = [] := by
        rw [CitationExtractor.collectLoop_eq]
        have : results.filter (fun r => decide (¬ Frac.lt r.hybrid_score minRel)) = [] := by
          rw [List.filter_eq_nil]
          intro r hr
          simp [hall r hr]
        rw [this]
        simp
      rw [hunfold, hnil]
      simp

/-- Witness for C8: with `min_relevance = 1` every score (0.9, 0.3, 0.8) is
below the floor, and `extract_citations` returns `[]`. -/
theorem extract_citations_contract_witness :
    (∀ r ∈ [witHyb1, witHyb2, witHyb3], Frac.lt r.hybrid_score (Frac.ofNat 1)) ∧
    CitationExtractor.extract_citations 200 "machine learning".toList
      [witHyb1, witHyb2, witHyb3] 2 (Frac.ofNat 1) = [] :=
  ⟨by decide,
   (extract_citations_contract 200 "machine learning".toList [witHyb1, witHyb2, witHyb3] 2
      (Frac.ofNat 1)).2.2.2.2 (by decide)⟩

/-- C10.  Implicit selection order: the chunks cited are exactly the first
`max_citations` results *in input order* whose `hybrid_score` is at least
`min_relevance` — the loop breaks at the cap before sorting, so a
qualifying result after the cap is never cited. -/
theorem extract_citations_selection_order :
    ∀ (maxLen : Nat) (q : PyStr) (results : List HybridResult) (maxCit : Nat) (minRel : Frac),
      ((CitationExtractor.extract_citations maxLen q results maxCit minRel).map
        (·.chunk_id)).Perm
        (((results.filter (fun r => decide (Frac.le minRel r.hybrid_score))).take
          maxCit).map (·.chunk_id)) := by
  intro maxLen q results maxCit minRel
  have hpred : (fun r : HybridResult => decide (¬ Frac.lt r.hybrid_score minRel)) =
      (fun r : HybridResult => decide (Frac.le minRel r.hybrid_score)) := by
    funext r
    rw [decide_eq_decide]
    exact not_lt
  by_cases hres : results.isEmpty
  · rw [List.isEmpty_iff.mp hres]
    simp [CitationExtractor.extract_citations]
  · have hunfold : CitationExtractor.extract_citations maxLen q results maxCit minRel =
        (List.insertionSort (fun a b : Citation => Frac.le b.relevance_score a.relevance_score)
          (CitationExtractor.collectLoop maxLen (CitationExtractor.extract_query_terms q)
            maxCit minRel results 0)).take maxCit := by
      simp only [CitationExtractor.extract_citations, if_neg hres]
    set citations := CitationExtractor.collectLoop maxLen
      (CitationExtractor.extract_query_terms q) maxCit minRel results 0 with hcit
    have hlen : citations.length ≤ maxCit := by
      rw [hcit, CitationExtractor.collectLoop_eq, List.length_map, Nat.sub_zero]
      exact List.length_take_le _ _
    have hsortlen : (List.insertionSort
        (fun a b : Citation => Frac.le b.relevance_score a.relevance_score)
        citations).length ≤ maxCit := by
      rw [(List.perm_insertionSort _ _).length_eq]
      exact hlen
    have htake : (List.insertionSort
        (fun a b : Citation => Frac.le b.relevance_score a.relevance_score)
        citations).take maxCit = List.insertionSort
          (fun a b : Citation => Frac.le b.relevance_score a.relevance_score) citations :=
      List.take_of_length_le hsortlen
    rw [hunfold, htake]
    refine List.Perm.trans (List.Perm.map _ (List.perm_insertionSort _ _)) ?_
    rw [hcit, CitationExtractor.collectLoop_eq, Nat.sub_zero, hpred, List.map_map]
    exact List.Perm.refl _

/-! ### Claim C5: citation snippet bound -/

theorem pyTakeI_length_le (k : Int) (s : PyStr) : (pyTakeI k s).length ≤ s.length := by
  rw [pyTakeI]
  split <;> · rw [List.length_take]; omega

theorem pyTakeI_length_le_toNat (k : Int) (s : PyStr) (hk : 0 ≤ k) :
    (pyTakeI k s).length ≤ k.toNat := by
  rw [pyTakeI, if_pos hk, List.length_take]
  omega

theorem pyTakeI_ne_nil (k : Int) (s : PyStr) (hk : 1 ≤ k) (hs : s ≠ []) :
    pyTakeI k s ≠ [] := by
  rw [pyTakeI, if_pos (by omega : (0 : Int) ≤ k)]
  have h1 : 1 ≤ k.toNat := by omega
  have h2 : 0 < s.length := List.length_pos.mpr hs
  apply List.length_pos.mp
  simp only [List.length_take, lt_min_iff]
  omega

theorem getLast?_mem_of_eq {α : Type} {l : List α} {a : α} (h : l.getLast? = some a) :
    a ∈ l := by
  have hmem : a ∈ l.getLast? := by rw [Option.mem_def]; exact h
  obtain ⟨hne, heq⟩ := List.mem_getLast?_eq_getLast hmem
  rw [heq]
  exact List.getLast_mem hne

theorem pyRFindChar_lt_stop (ch : Char) (s : PyStr) (stop : Int) (hstop : 0 ≤ stop) :
    pyRFindChar ch s stop = -1 ∨
      (0 ≤ pyRFindChar ch s stop ∧ pyRFindChar ch s stop < stop) := by
  rw [pyRFindChar]
  split
  · next i heq =>
    right
    have hmem := getLast?_mem_of_eq heq
    have hrange := List.mem_range.mp (List.mem_of_mem_filter hmem)
    refine ⟨by positivity, ?_⟩
    by_cases hneg : stop < 0
    · rw [if_pos hneg] at hrange
      omega
    · rw [if_neg hneg] at hrange
      have h1 : i < stop.toNat := lt_of_lt_of_le hrange (min_le_left _ _)
      omega
  · next heq => exact Or.inl rfl

theorem mem_pyRange_lt (stop : Int) (step : Nat) (x : Nat)
    (hx : x ∈ pyRange stop step) : (x : Int) < stop := by
  rw [pyRange] at hx
  split at hx
  · cases hx
  · next hpos =>
    obtain ⟨i, hi, hix⟩ := List.mem_map.mp hx
    have hir := List.mem_range.mp hi
    have h1 : i ≤ (stop.toNat - 1) / step := by omega
    have h2 : i * step ≤ ((stop.toNat - 1) / step) * step :=
      Nat.mul_le_mul_right step h1
    have h3 : ((stop.toNat - 1) / step) * step ≤ stop.toNat - 1 := by
      rw [Nat.mul_comm]
      exact Nat.mul_div_le _ _
    have h4 : x ≤ stop.toNat - 1 := by omega
    omega

theorem foldl_snd_mem {f : Frac × Nat → Nat → Frac × Nat}
    (hf : ∀ b s, (f b s).2 = b.2 ∨ (f b s).2 = s) :
    ∀ (starts : List Nat) (b0 : Frac × Nat),
      (starts.foldl f b0).2 = b0.2 ∨ (starts.foldl f b0).2 ∈ starts := by
  intro starts
  induction starts with
  | nil => intro b0; exact Or.inl rfl
  | cons s ss ih =>
    intro b0
    rw [List.foldl_cons]
    rcases ih (f b0 s) with h | h
    · rcases hf b0 s with h2 | h2
      · exact Or.inl (h.trans h2)
      · exact Or.inr (by rw [h, h2]; exact List.mem_cons_self _ _)
    · exact Or.inr (List.mem_cons_of_mem _ h)

theorem bestWindow_snd_mem (cl : PyStr) (terms : List PyStr) (starts : List Nat) (ws : Nat) :
    (CitationExtractor.bestWindow cl terms starts ws).2 = 0 ∨
      (CitationExtractor.bestWindow cl terms starts ws).2 ∈ starts := by
  rw [CitationExtractor.bestWindow]
  exact foldl_snd_mem (fun b s => by dsimp only; split <;> simp) starts (Frac.zero, 0)

theorem clean_length_le (maxLen : Nat) (h3 : 3 ≤ maxLen) (snippet : PyStr) (b : Bool) :
    (CitationExtractor.clean_snippet_boundaries maxLen snippet b).length ≤
      snippet.length + 3 := by
  cases snippet with
  | nil => simp [CitationExtractor.clean_snippet_boundaries]
  | cons c cs =>
    simp only [CitationExtractor.clean_snippet_boundaries]
    set s1 := if b && !c.isUpper then "...".toList ++ (c :: cs) else (c :: cs) with hs1def
    have hs1 : s1.length ≤ (c :: cs).length + 3 := by
      rw [hs1def]
      split <;> simp
    split
    · exact le_trans (pyTakeI_length_le _ _) hs1
    · split
      · next hml =>
        split
        · next hls =>
          rcases pyRFindChar_lt_stop ' ' s1 ((maxLen : Int) - 3) (by omega) with hm1 | ⟨hm2, hm3⟩
          · exfalso
            rw [hm1] at hls
            have hq := hls
            simp only [Frac.lt, Frac.toRat_mul, Frac.toRat_ofNat] at hq
            rw [Frac.toRat_mk' _ _ (by omega), Frac.toRat_mk' _ _ (by omega)] at hq
            have h1 : (0 : ℚ) ≤ (s1.length : ℚ) * ((4 : ℚ) / (5 : ℚ)) := by positivity
            have h2 : (((-1 : Int) : ℚ)) / ((1 : Nat) : ℚ) = -1 := by norm_num
            rw [h2] at hq
            linarith
          · rw [List.length_append]
            have h1 : (pyTakeI (pyRFindChar ' ' s1 ((maxLen : Int) - 3)) s1).length ≤
                (pyRFindChar ' ' s1 ((maxLen : Int) - 3)).toNat :=
              pyTakeI_length_le_toNat _ _ hm2
            have h2 : (pyRFindChar ' ' s1 ((maxLen : Int) - 3)).toNat < maxLen - 3 := by omega
            have h3l : ("...".toList : PyStr).length = 3 := rfl
            omega
        · rw [List.length_append]
          have h1 : (pyTakeI ((maxLen : Int) - 3) s1).length ≤ ((maxLen : Int) - 3).toNat :=
            pyTakeI_length_le_toNat _ _ (by omega)
          have h3l : ("...".toList : PyStr).length = 3 := rfl
          omega
      · exact hs1

theorem clean_ne_nil (maxLen : Nat) (snippet : PyStr) (b : Bool) (hs : snippet ≠ []) :
    CitationExtractor.clean_snippet_boundaries maxLen snippet b ≠ [] := by
  cases snippet with
  | nil => exact absurd rfl hs
  | cons c cs =>
    simp only [CitationExtractor.clean_snippet_boundaries]
    set s1 := if b && !c.isUpper then "...".toList ++ (c :: cs) else (c :: cs) with hs1def
    have hs1ne : s1 ≠ [] := by
      rw [hs1def]
      split
      · simp
      · simp
    have hs1len : 1 ≤ s1.length := List.length_pos.mpr hs1ne
    split
    · next hsent =>
      set se := max (pyRFindChar '.' s1 (s1.length : Int))
        (max (pyRFindChar '!' s1 (s1.length : Int)) (pyRFindChar '?' s1 (s1.length : Int)))
        with hsedef
      have hq := hsent
      simp only [Frac.lt, Frac.toRat_mul, Frac.toRat_ofNat] at hq
      rw [Frac.toRat_mk' _ _ (by omega), Frac.toRat_mk' _ _ (by omega)] at hq
      have hse0 : 0 ≤ se := by
        by_contra hcon
        push_neg at hcon
        have hcast : ((se : ℚ)) ≤ -1 := by exact_mod_cast Int.le_sub_one_of_lt hcon
        have h1 : (0 : ℚ) ≤ (s1.length : ℚ) * ((7 : ℚ) / (10 : ℚ)) := by positivity
        have h2 : ((se : ℚ)) / ((1 : Nat) : ℚ) = (se : ℚ) := by norm_num
        rw [h2] at hq
        linarith
      exact pyTakeI_ne_nil _ _ (by omega) hs1ne
    · split
      · split
        · simp
        · simp
      · exact hs1ne

theorem mem_starts_lt_length (maxLen : Nat) (content : PyStr)
    (x : Nat) (hx : x ∈ pyRange ((content.length : Int) - (maxLen : Int) + 1) 50) :
    x + maxLen ≤ content.length := by
  have h := mem_pyRange_lt _ _ _ hx
  omega

theorem extract_snippet_length_le (maxLen : Nat) (h3 : 3 ≤ maxLen) (content : PyStr)
    (terms : List PyStr) :
    (CitationExtractor.extract_snippet maxLen content terms).1.length ≤ 2 * maxLen := by
  simp only [CitationExtractor.extract_snippet]
  split
  · simp
  · split
    · split
      · next hlong =>
        rw [List.length_append, List.length_take]
        have h3l : ("...".toList : PyStr).length = 3 := rfl
        omega
      · rw [List.length_take]
        omega
    · refine le_trans (clean_length_le maxLen h3 _ _) ?_
      rw [List.length_take, List.length_drop]
      omega

theorem extract_snippet_ne_nil (maxLen : Nat) (h3 : 3 ≤ maxLen) (content : PyStr)
    (hc : content ≠ []) (terms : List PyStr) :
    (CitationExtractor.extract_snippet maxLen content terms).1 ≠ [] := by
  have hclen : 0 < content.length := List.length_pos.mpr hc
  simp only [CitationExtractor.extract_snippet]
  rw [if_neg (by simp [hc])]
  split
  · split
    · simp
    · have : (content.take maxLen).length = min maxLen content.length := List.length_take _ _
      apply List.length_pos.mp
      rw [List.length_take]
      simp only [lt_min_iff]
      omega
  · apply clean_ne_nil
    have hbest : (CitationExtractor.bestWindow (pyLower content) terms
        (pyRange ((content.length : Int) - (maxLen : Int) + 1) 50) maxLen).2 <
        content.length := by
      rcases bestWindow_snd_mem (pyLower content) terms
        (pyRange ((content.length : Int) - (maxLen : Int) + 1) 50) maxLen with h | h
      · omega
      · have := mem_starts_lt_length maxLen content _ h
        omega
    apply List.length_pos.mp
    rw [List.length_take, List.length_drop]
    simp only [lt_min_iff]
    omega

theorem mkCitation_text (maxLen : Nat) (terms : List PyStr) (r : HybridResult) :
    (CitationExtractor.mkCitation maxLen terms r).text_snippet =
      (CitationExtractor.extract_snippet maxLen r.content terms).1 := rfl

theorem mem_extract_citations (maxLen : Nat) (q : PyStr) (results : List HybridResult)
    (maxCit : Nat) (minRel : Frac) (c : Citation)
    (hc : c ∈ CitationExtractor.extract_citations maxLen q results maxCit minRel) :
    ∃ r ∈ results, c = CitationExtractor.mkCitation maxLen
      (CitationExtractor.extract_query_terms q) r := by
  by_cases hres : results.isEmpty
  · rw [List.isEmpty_iff.mp hres] at hc ⊢
    simp [CitationExtractor.extract_citations] at hc
  · have hunfold : CitationExtractor.extract_citations maxLen q results maxCit minRel =
        (List.insertionSort (fun a b : Citation => Frac.le b.relevance_score a.relevance_score)
          (CitationExtractor.collectLoop maxLen (CitationExtractor.extract_query_terms q)
            maxCit minRel results 0)).take maxCit := by
      simp only [CitationExtractor.extract_citations, if_neg hres]
    rw [hunfold] at hc
    have h1 := (List.take_sublist _ _).subset hc
    have h2 := (List.perm_insertionSort _ _).mem_iff.mp h1
    obtain ⟨r, hrmem, hcr, _⟩ :=
      CitationExtractor.collectLoop_mem maxLen _ maxCit minRel results 0 c h2
    exact ⟨r, hrmem, hcr⟩

/-- C5 (amended).  Citation snippet bound: for an extractor with
`max_snippet_length ≥ 3`, every produced citation has
`len(text_snippet) ≤ 2 * max_snippet_length`; and the lower bound
`0 < len(text_snippet)` holds provided every cited chunk's content is
nonempty.  (The unconditional `0 < len` of the original claim fails on an
empty chunk content — see the counterexample.) -/
theorem citation_snippet_bound :
    ∀ (maxLen : Nat), 3 ≤ maxLen →
      ∀ (q : PyStr) (results : List HybridResult) (maxCit : Nat) (minRel : Frac),
        ∀ c ∈ CitationExtractor.extract_citations maxLen q results maxCit minRel,
          c.text_snippet.length ≤ 2 * maxLen ∧
          ((∀ r ∈ results, r.content ≠ []) → 0 < c.text_snippet.length) := by
  intro maxLen h3 q results maxCit minRel c hc
  obtain ⟨r, hrmem, hcr⟩ := mem_extract_citations maxLen q results maxCit minRel c hc
  rw [hcr, mkCitation_text]
  constructor
  · exact extract_snippet_length_le maxLen h3 r.content _
  · intro hall
    exact List.length_pos.mpr
      (extract_snippet_ne_nil maxLen h3 r.content (hall r hrmem) _)

/-- Counterexample to C5 as stated: a hybrid result whose chunk content is
empty yields a citation whose `text_snippet` is the empty string, so
`0 < len(text_snippet)` fails. -/
theorem citation_snippet_zero_length :
    (CitationExtractor.extract_citations 200 "zebra query".toList [cexEmptyContent] 5
      (Frac.mk' 1 10)).map (fun c => c.text_snippet) = [[]] := by
  decide

/-- Witness for the amended C5 at a concrete extraction. -/
theorem citation_snippet_bound_witness :
    ((CitationExtractor.extract_citations 200 "machine learning".toList [witHyb1] 5
        (Frac.mk' 1 10)).headD junkCitation).text_snippet.length ≤ 2 * 200 ∧
    0 < ((CitationExtractor.extract_citations 200 "machine learning".toList [witHyb1] 5
        (Frac.mk' 1 10)).headD junkCitation).text_snippet.length := by
  have h := citation_snippet_bound 200 (by omega) "machine learning".toList [witHyb1] 5
    (Frac.mk' 1 10) ((CitationExtractor.extract_citations 200 "machine learning".toList
      [witHyb1] 5 (Frac.mk' 1 10)).headD junkCitation) (by decide)
  exact ⟨h.1, h.2 (by decide)⟩

/-! ### Claim C6: tail-cluster window selection -/

theorem pyLower_length (s : PyStr) : (pyLower s).length = s.length := List.length_map _ _

theorem occursAt_le_length {t s : PyStr} {p : Nat} (ht : t ≠ []) (h : occursAt t s p) :
    p + t.length ≤ s.length := by
  have htl : 0 < t.length := List.length_pos.mpr ht
  have hlen := congrArg List.length h
  rw [List.length_take, List.length_drop] at hlen
  omega

theorem occursAt_slice {t : PyStr} (ht : t ≠ []) (s : PyStr) (a w q : Nat) :
    occursAt t ((s.drop a).take w) q ↔ occursAt t s (a + q) ∧ q + t.length ≤ w := by
  have htl : 0 < t.length := List.length_pos.mpr ht
  have hrw : ((s.drop a).take w).drop q = (s.drop (a + q)).take (w - q) := by
    rw [List.drop_take, List.drop_drop]
  constructor
  · intro h
    rw [occursAt, hrw, List.take_take] at h
    have hlen := congrArg List.length h
    rw [List.length_take, List.length_drop] at hlen
    have hle : t.length ≤ w - q ∧ q + t.length ≤ w ∧ min t.length (w - q) = t.length := by
      omega
    refine ⟨?_, hle.2.1⟩
    rw [occursAt]
    rw [hle.2.2] at h
    exact h
  · rintro ⟨h1, h2⟩
    rw [occursAt, hrw, List.take_take]
    have hmin : min t.length (w - q) = t.length := by omega
    rw [hmin]
    exact h1

theorem matchesAt_iff (pat s : PyStr) (p : Nat) :
    matchesAt pat (s.drop p) = true ↔ occursAt pat s p := by
  rw [matchesAt, decide_eq_true_iff, occursAt]

theorem matchesAt_iff_zero (pat u : PyStr) :
    matchesAt pat u = true ↔ occursAt pat u 0 := by
  rw [matchesAt, decide_eq_true_iff, occursAt, List.drop_zero]

theorem countOccurAux_eq_zero {t : PyStr} (_ht : t ≠ []) :
    ∀ (fuel : Nat) (s : PyStr), (∀ p, ¬ occursAt t s p) → countOccurAux t fuel s = 0 := by
  intro fuel
  induction fuel with
  | zero => intro s _; cases s <;> rfl
  | succ n ih =>
    intro s hnone
    cases s with
    | nil => rfl
    | cons c rest =>
      rw [countOccurAux]
      rw [if_neg (fun hmatch => hnone 0 ((matchesAt_iff_zero t (c :: rest)).mp hmatch))]
      exact ih rest (fun p hp => hnone (p + 1) hp)

theorem countOccur_eq_zero {t : PyStr} (ht : t ≠ []) (s : PyStr)
    (h : ∀ p, ¬ occursAt t s p) : countOccur t s = 0 := by
  rw [countOccur, if_neg (by simp [ht])]
  exact countOccurAux_eq_zero ht s.length s h

theorem countOccurAux_pos {t : PyStr} (ht : t ≠ []) :
    ∀ (fuel : Nat) (s : PyStr) (p : Nat), s.length ≤ fuel → occursAt t s p →
      0 < countOccurAux t fuel s := by
  intro fuel
  induction fuel with
  | zero =>
    intro s p hf hocc
    have h1 := occursAt_le_length ht hocc
    have h2 : 0 < t.length := List.length_pos.mpr ht
    omega
  | succ n ih =>
    intro s p hf hocc
    cases s with
    | nil =>
      have h1 := occursAt_le_length ht hocc
      have h2 : 0 < t.length := List.length_pos.mpr ht
      simp only [List.length_nil] at h1
      omega
    | cons c rest =>
      rw [countOccurAux]
      by_cases hm : matchesAt t (c :: rest) = true
      · rw [if_pos hm]
        omega
      · rw [if_neg hm]
        cases p with
        | zero => exact absurd ((matchesAt_iff_zero t (c :: rest)).mpr hocc) hm
        | succ p2 =>
          have hrest : occursAt t rest p2 := hocc
          exact ih rest p2 (by simpa using Nat.le_of_succ_le_succ (by simpa using hf)) hrest

theorem countOccur_pos {t : PyStr} (ht : t ≠ []) (s : PyStr) {p : Nat}
    (h : occursAt t s p) : 0 < countOccur t s := by
  rw [countOccur, if_neg (by simp [ht])]
  exact countOccurAux_pos ht s.length s p (le_refl _) h

theorem pyFind_eq_neg_one {t : PyStr} (s : PyStr)
    (h : ∀ p, ¬ occursAt t s p) : pyFind t s = -1 := by
  rw [pyFind]
  split
  · next p heq =>
    exfalso
    have hp := List.find?_some heq
    exact h p ((matchesAt_iff t s p).mp hp)
  · rfl

theorem ordPairs_mem {α : Type} : ∀ (l : List α) (pr : α × α), pr ∈ ordPairs l →
    pr.1 ∈ l ∧ pr.2 ∈ l := by
  intro l
  induction l with
  | nil => intro pr hpr; cases hpr
  | cons x xs ih =>
    intro pr hpr
    rw [ordPairs] at hpr
    rcases List.mem_append.mp hpr with h | h
    · obtain ⟨y, hy, hxy⟩ := List.mem_map.mp h
      rw [← hxy]
      exact ⟨List.mem_cons_self _ _, List.mem_cons_of_mem _ hy⟩
    · obtain ⟨h1, h2⟩ := ih pr h
      exact ⟨List.mem_cons_of_mem _ h1, List.mem_cons_of_mem _ h2⟩

theorem foldl_const {α β : Type} {f : β → α → β} (l : List α) (b0 : β)
    (h : ∀ x ∈ l, f b0 x = b0) : l.foldl f b0 = b0 := by
  induction l with
  | nil => rfl
  | cons x xs ih =>
    rw [List.foldl_cons, h x (List.mem_cons_self _ _)]
    exact ih (fun y hy => h y (List.mem_cons_of_mem _ hy))

theorem windowScore_zero (window : PyStr) (terms : List PyStr)
    (h : ∀ t ∈ terms, ∀ p, ¬ occursAt t window p) (hts : ∀ t ∈ terms, t ≠ []) :
    Frac.toRat (CitationExtractor.windowScore window terms) = 0 := by
  rw [CitationExtractor.windowScore]
  have hbase : (terms.map (fun t => countOccur t window)).sum = 0 := by
    apply List.sum_eq_zero
    intro x hx
    obtain ⟨t, htmem, htx⟩ := List.mem_map.mp hx
    rw [← htx]
    exact countOccur_eq_zero (hts t htmem) window (h t htmem)
  have hbonus : ∀ (l : List (PyStr × PyStr)), (∀ pr ∈ l, pr.1 ∈ terms) →
      l.foldl (fun acc pr =>
        let term1_pos := pyFind pr.1 window
        let term2_pos := pyFind pr.2 window
        if term1_pos ≠ -1 ∧ term2_pos ≠ -1 ∧ (term1_pos - term2_pos).natAbs < 100 then
          Frac.add acc (Frac.mk' 1 2)
        else acc) Frac.zero = Frac.zero := by
    intro l hl
    apply foldl_const
    intro pr hpr
    have hfind : pyFind pr.1 window = -1 := pyFind_eq_neg_one window (h pr.1 (hl pr hpr))
    dsimp only
    rw [if_neg (by rw [hfind]; simp)]
  split
  · rw [hbase, hbonus (ordPairs terms) (fun pr hpr => (ordPairs_mem terms pr hpr).1)]
    simp
  · rw [hbase]
    simp

theorem bonus_nonneg (window : PyStr) (_terms : List PyStr) :
    ∀ (l : List (PyStr × PyStr)) (acc : Frac), 0 ≤ Frac.toRat acc →
      0 ≤ Frac.toRat (l.foldl (fun acc pr =>
        let term1_pos := pyFind pr.1 window
        let term2_pos := pyFind pr.2 window
        if term1_pos ≠ -1 ∧ term2_pos ≠ -1 ∧ (term1_pos - term2_pos).natAbs < 100 then
          Frac.add acc (Frac.mk' 1 2)
        else acc) acc) := by
  intro l
  induction l with
  | nil => intro acc hacc; exact hacc
  | cons pr rest ih =>
    intro acc hacc
    rw [List.foldl_cons]
    apply ih
    dsimp only
    split
    · rw [Frac.toRat_add, Frac.toRat_mk' _ _ (by omega)]
      norm_num
      linarith
    · exact hacc

theorem windowScore_pos (window : PyStr) (terms : List PyStr)
    (t0 : PyStr) (ht0 : t0 ∈ terms) (ht0ne : t0 ≠ []) (p : Nat)
    (hocc : occursAt t0 window p) :
    0 < Frac.toRat (CitationExtractor.windowScore window terms) := by
  rw [CitationExtractor.windowScore]
  have hbase : 0 < (terms.map (fun t => countOccur t window)).sum := by
    have h1 : 0 < countOccur t0 window := countOccur_pos ht0ne window hocc
    have h2 : countOccur t0 window ∈ terms.map (fun t => countOccur t window) :=
      List.mem_map_of_mem _ ht0
    have h3 := List.single_le_sum (fun (x : Nat) _ => Nat.zero_le x) _ h2
    omega
  rw [Frac.toRat_add, Frac.toRat_ofNat]
  have hb : (0 : ℚ) < ((terms.map (fun t => countOccur t window)).sum : ℚ) := by
    exact_mod_cast hbase
  have hbonus : 0 ≤ Frac.toRat (if 1 < terms.length then
      (ordPairs terms).foldl (fun acc pr =>
        let term1_pos := pyFind pr.1 window
        let term2_pos := pyFind pr.2 window
        if term1_pos ≠ -1 ∧ term2_pos ≠ -1 ∧ (term1_pos - term2_pos).natAbs < 100 then
          Frac.add acc (Frac.mk' 1 2)
        else acc) Frac.zero
    else Frac.zero) := by
    split
    · exact bonus_nonneg window terms (ordPairs terms) Frac.zero (by simp)
    · simp
  linarith

theorem pyRange_decomp (L W : Nat) (hW : W ≤ L) (hmod : (L - W) % 50 = 0) :
    pyRange ((L : Int) - (W : Int) + 1) 50 =
      ((List.range ((L - W) / 50)).map (fun i => i * 50)) ++ [L - W] := by
  rw [pyRange, if_neg (by omega)]
  have h1 : ((L : Int) - (W : Int) + 1).toNat = (L - W) + 1 := by omega
  rw [h1]
  have h2 : ((L - W) + 1 - 1) / 50 + 1 = (L - W) / 50 + 1 := by omega
  rw [h2, List.range_succ, List.map_append]
  congr 1
  simp only [List.map_cons, List.map_nil]
  congr 1
  exact Nat.div_mul_cancel (Nat.dvd_of_mod_eq_zero hmod)

/-- C6 (amended).  Tail-cluster window selection: suppose the query terms
occur in the (lowercased) chunk content only within its final 30
characters, at least one of them does occur there, `max_snippet_length` is
at least 30, and the content is long enough with
`(len(content) - max_snippet_length)` a multiple of the 50-character step —
so the window starting at `len - max_snippet_length` is among the visited
window starts.  Then the sliding-window search selects exactly that final
window, whose span `[len - max_snippet_length, len)` contains the whole
cluster.  (When `(len - max_snippet_length) mod 50 ∈ [30, 50)`, no visited
window reaches the cluster and the search falls back to the chunk's
opening characters — see the counterexample.) -/
theorem tail_cluster_window :
    ∀ (maxLen : Nat) (content : PyStr) (terms : List PyStr),
      30 ≤ maxLen → maxLen ≤ content.length →
      (content.length - maxLen) % 50 = 0 →
      terms ≠ [] →
      (∀ t ∈ terms, t ≠ []) →
      (∀ t ∈ terms, ∀ p ∈ List.range (content.length + 1),
        occursAt t (pyLower content) p → content.length - 30 ≤ p) →
      (∃ t ∈ terms, ∃ p ∈ List.range (content.length + 1),
        occursAt t (pyLower content) p ∧ content.length - 30 ≤ p) →
      (CitationExtractor.extract_snippet maxLen content terms).2.1 =
          some (content.length - maxLen) ∧
        (∀ q, content.length - 30 ≤ q → q < content.length →
          content.length - maxLen ≤ q ∧ q < (content.length - maxLen) + maxLen) := by
  intro maxLen content terms h30 hWle hmod htne hts h6 h7
  have hcne : content ≠ [] := by
    intro hcon
    rw [hcon] at hWle
    simp at hWle
    omega
  have hlow : (pyLower content).length = content.length := pyLower_length content
  -- unbounded form of the only-in-the-tail hypothesis
  have h6' : ∀ t ∈ terms, ∀ p, occursAt t (pyLower content) p →
      content.length - 30 ≤ p := by
    intro t htmem p hocc
    have hb := occursAt_le_length (hts t htmem) hocc
    rw [hlow] at hb
    have htl : 0 < t.length := List.length_pos.mpr (hts t htmem)
    exact h6 t htmem p (List.mem_range.mpr (by omega)) hocc
  -- every visited window except the last misses the cluster entirely
  have hnone : ∀ s, s + 50 ≤ content.length - maxLen →
      ∀ t ∈ terms, ∀ q, ¬ occursAt t (((pyLower content).drop s).take maxLen) q := by
    intro s hs t htmem q hocc
    have hsl := (occursAt_slice (hts t htmem) (pyLower content) s maxLen q).mp hocc
    obtain ⟨hfull, hbnd⟩ := hsl
    have hge := h6' t htmem (s + q) hfull
    have hlen := occursAt_le_length (hts t htmem) hfull
    rw [hlow] at hlen
    have htl : 0 < t.length := List.length_pos.mpr (hts t htmem)
    omega
  obtain ⟨t0, ht0mem, p0, hp0r, hocc0, hge0⟩ := h7
  have ht0ne : t0 ≠ [] := hts t0 ht0mem
  have hp0len : p0 + t0.length ≤ content.length := by
    have h := occursAt_le_length ht0ne hocc0
    rwa [hlow] at h
  -- the last window contains the cluster occurrence
  have hlast : occursAt t0 (((pyLower content).drop (content.length - maxLen)).take maxLen)
      (p0 - (content.length - maxLen)) := by
    refine (occursAt_slice ht0ne (pyLower content) (content.length - maxLen) maxLen
      (p0 - (content.length - maxLen))).mpr ⟨?_, ?_⟩
    · have he : (content.length - maxLen) + (p0 - (content.length - maxLen)) = p0 := by
        omega
      rw [he]
      exact hocc0
    · omega
  have hposlast : 0 < Frac.toRat (CitationExtractor.windowScore
      (((pyLower content).drop (content.length - maxLen)).take maxLen) terms) :=
    windowScore_pos _ terms t0 ht0mem ht0ne _ hlast
  have hstarts := pyRange_decomp content.length maxLen hWle hmod
  have hbw : (CitationExtractor.bestWindow (pyLower content) terms
      (pyRange ((content.length : Int) - (maxLen : Int) + 1) 50) maxLen).2 =
      content.length - maxLen := by
    rw [CitationExtractor.bestWindow, hstarts, List.foldl_append]
    have hinit : ((List.range ((content.length - maxLen) / 50)).map
        (fun i => i * 50)).foldl (fun best s =>
          let score := CitationExtractor.windowScore
            (((pyLower content).drop s).take maxLen) terms
          if Frac.lt best.1 score then (score, s) else best) (Frac.zero, 0) =
        (Frac.zero, 0) := by
      apply foldl_const
      intro s hs
      obtain ⟨i, hi, hs50⟩ := List.mem_map.mp hs
      have hirange := List.mem_range.mp hi
      have hq50 : ((content.length - maxLen) / 50) * 50 ≤ content.length - maxLen := by
        have := Nat.div_mul_le_self (content.length - maxLen) 50
        omega
      have hbound : s + 50 ≤ content.length - maxLen := by
        have h1 : i + 1 ≤ (content.length - maxLen) / 50 := hirange
        have h2 : (i + 1) * 50 ≤ ((content.length - maxLen) / 50) * 50 :=
          Nat.mul_le_mul_right 50 h1
        have h3 : s = i * 50 := hs50.symm
        omega
      have hz := windowScore_zero (((pyLower content).drop s).take maxLen) terms
        (fun t htmem q => hnone s hbound t htmem q) hts
      dsimp only
      rw [if_neg]
      intro hlt
      have h' : Frac.toRat Frac.zero < Frac.toRat (CitationExtractor.windowScore
          (((pyLower content).drop s).take maxLen) terms) := hlt
      rw [Frac.toRat_zero, hz] at h'
      exact absurd h' (lt_irrefl 0)
    rw [hinit, List.foldl_cons, List.foldl_nil]
    dsimp only
    have hltpos : Frac.lt Frac.zero (CitationExtractor.windowScore
        (((pyLower content).drop (content.length - maxLen)).take maxLen) terms) := by
      show Frac.toRat Frac.zero < _
      rw [Frac.toRat_zero]
      exact hposlast
    rw [if_pos hltpos]
  constructor
  · have hc1 : ¬ (content.isEmpty = true) := by simp [hcne]
    have hc2 : ¬ (terms.isEmpty = true) := by simp [htne]
    simp only [CitationExtractor.extract_snippet, if_neg hc1, if_neg hc2]
    rw [hbw]
  · intro q hq1 hq2
    omega

/-- Counterexample to C6 as stated: for the 230-character content whose
only query-term occurrence starts at offset 205 (inside the final 30
characters), the visited window starts are just `[0]` (since
`230 - 200 + 1 = 31` and the step is 50), every visited window misses the
cluster, and the search returns the chunk's opening window: start offset 0
and a snippet containing no occurrence of the term. -/
theorem tail_cluster_counterexample :
    cexTailContent.length = 230 ∧
    occursAt "zebra".toList (pyLower cexTailContent) 205 ∧
    (∀ p ∈ List.range (cexTailContent.length + 1),
      occursAt "zebra".toList (pyLower cexTailContent) p → cexTailContent.length - 30 ≤ p) ∧
    (CitationExtractor.extract_snippet 200 cexTailContent ["zebra".toList]).2.1 = some 0 ∧
    countOccur "zebra".toList
      (pyLower (CitationExtractor.extract_snippet 200 cexTailContent ["zebra".toList]).1) = 0 := by
  decide

/-- Witness for the amended C6 at the 400-character content with the only
occurrence at offset 375: the window starting at 200 is selected. -/
theorem tail_cluster_window_witness :
    (CitationExtractor.extract_snippet 200 witTailContent ["zebra".toList]).2.1 =
        some (witTailContent.length - 200) ∧
      (∀ q, witTailContent.length - 30 ≤ q → q < witTailContent.length →
        witTailContent.length - 200 ≤ q ∧ q < (witTailContent.length - 200) + 200) :=
  tail_cluster_window 200 witTailContent ["zebra".toList] (by decide) (by decide) (by decide)
    (by decide) (by decide) (by decide) (by decide)

/-! ### Claim C9: highlighting -/

theorem star_not_mem_of_lower {t : PyStr} (h : '*' ∉ pyLower t) : '*' ∉ t := by
  intro hmem
  apply h
  have h1 := List.mem_map_of_mem lowerChar hmem
  exact h1

theorem removeStars_eq_self {s : PyStr} (h : '*' ∉ s) : removeStars s = s := by
  rw [removeStars, List.filter_eq_self]
  intro a ha
  rw [decide_eq_true_eq]
  intro hcon
  rw [hcon] at ha
  exact h ha

theorem subAuxF_lower_removeStars (x t : PyStr) (ht : t ≠ []) (hstar : '*' ∉ pyLower t) :
    ∀ (fuel p : Nat), x.length - p ≤ fuel →
      pyLower (removeStars (CitationExtractor.subAuxF x t fuel p)) =
        pyLower (removeStars (x.drop p)) := by
  have htlen : 0 < t.length := List.length_pos.mpr ht
  have hts : '*' ∉ t := star_not_mem_of_lower hstar
  intro fuel
  induction fuel with
  | zero =>
    intro p hf
    rw [List.drop_eq_nil_of_le (by omega)]
    rfl
  | succ n ih =>
    intro p hf
    rw [CitationExtractor.subAuxF]
    by_cases hp : p < x.length
    · rw [if_pos hp]
      by_cases hm : CitationExtractor.matchAtWB x t p = true
      · rw [if_pos hm]
        have hmatch : pyLower ((x.drop p).take t.length) = pyLower t := by
          have h1 := hm
          rw [CitationExtractor.matchAtWB] at h1
          simp only [Bool.and_eq_true, decide_eq_true_eq] at h1
          exact h1.1.1
        have hportion : '*' ∉ (x.drop p).take t.length := by
          intro hmem
          apply hstar
          rw [← hmatch]
          exact List.mem_map_of_mem lowerChar hmem
        have hrec := ih (p + t.length) (by omega)
        have hdecomp : x.drop p = (x.drop p).take t.length ++ x.drop (p + t.length) := by
          rw [← List.drop_drop]
          exact (List.take_append_drop t.length (x.drop p)).symm
        rw [hdecomp]
        simp only [removeStars, pyLower, List.filter_append, List.map_append] at hrec ⊢
        simp only [pyLower] at hmatch
        have hft : List.filter (fun c => decide (c ≠ '*')) t = t := removeStars_eq_self hts
        have hfp : List.filter (fun c => decide (c ≠ '*')) ((x.drop p).take t.length) =
            (x.drop p).take t.length := removeStars_eq_self hportion
        rw [show (List.filter (fun c => decide (c ≠ '*')) ("**".toList : PyStr)) = [] from rfl,
          hft, hfp, hmatch]
        simp only [List.map_nil, List.append_nil, List.nil_append]
        rw [hrec]
      · rw [if_neg hm]
        have hdrop : x.drop p = x.getD p ' ' :: x.drop (p + 1) := by
          rw [List.drop_eq_getElem_cons hp]
          congr 1
          exact (List.getD_eq_getElem x ' ' hp).symm
        have hrec := ih (p + 1) (by omega)
        rw [hdrop]
        simp only [removeStars, pyLower, List.filter_cons] at hrec ⊢
        by_cases hc : x.getD p ' ' = '*'
        · rw [List.getD_eq_getElem?_getD] at hc
          rw [if_neg (by simp [hc]), if_neg (by simp [hc])]
          exact hrec
        · rw [List.getD_eq_getElem?_getD] at hc
          rw [if_pos (by simp [hc]), if_pos (by simp [hc])]
          simp only [List.map_cons]
          congr 1
    · rw [if_neg hp]
      rw [List.drop_eq_nil_of_le (by omega)]

theorem subTermWB_lower (t x : PyStr) (ht : t ≠ []) (hstar : '*' ∉ pyLower t) :
    pyLower (removeStars (CitationExtractor.subTermWB t x)) = pyLower (removeStars x) := by
  rw [CitationExtractor.subTermWB]
  have h := subAuxF_lower_removeStars x t ht hstar x.length 0 (by omega)
  rwa [List.drop_zero] at h

theorem foldl_subTermWB_lower :
    ∀ (ts : List PyStr), (∀ t ∈ ts, t ≠ [] ∧ '*' ∉ pyLower t) →
      ∀ (s : PyStr), pyLower (removeStars
        (ts.foldl (fun acc t => CitationExtractor.subTermWB t acc) s)) =
        pyLower (removeStars s) := by
  intro ts
  induction ts with
  | nil => intro _ s; rfl
  | cons t rest ih =>
    intro hts s
    rw [List.foldl_cons]
    rw [ih (fun u hu => hts u (List.mem_cons_of_mem _ hu)) (CitationExtractor.subTermWB t s)]
    exact subTermWB_lower t s (hts t (List.mem_cons_self _ _)).1
      (hts t (List.mem_cons_self _ _)).2

/-- C9 (amended).  Highlighting wraps matches and lowercases them: the
replacement text is `**term**` with the (lowercased) query term itself, so
a differently-cased occurrence is altered — deleting the markers recovers
the snippet only up to ASCII case.  Formally, for a snippet and terms with
no native `'*'` characters, removing every `'*'` from the highlighted
snippet yields the original snippet lowercased-equal:
`lower(strip-markers(highlight(s, ts))) = lower(s)`. -/
theorem highlight_preserves_text_mod_case :
    ∀ (snippet : PyStr) (terms : List PyStr),
      '*' ∉ snippet → (∀ t ∈ terms, t ≠ [] ∧ '*' ∉ pyLower t) →
      pyLower (removeStars (CitationExtractor.highlight_terms snippet terms)) =
        pyLower snippet := by
  intro snippet terms hsnip hterms
  rw [CitationExtractor.highlight_terms]
  split
  · rw [removeStars_eq_self hsnip]
  · have hsortmem : ∀ t ∈ List.insertionSort
        (fun a b : PyStr => b.length ≤ a.length) terms, t ≠ [] ∧ '*' ∉ pyLower t := by
      intro t htm
      exact hterms t ((List.perm_insertionSort _ _).mem_iff.mp htm)
    rw [foldl_subTermWB_lower _ hsortmem snippet, removeStars_eq_self hsnip]

/-- Counterexample to C9 as stated: highlighting `"Zebra runs"` with the
query term `"zebra"` produces `"**zebra** runs"` — the matched occurrence
is replaced by the lowercased term — so deleting the `**` markers yields
`"zebra runs"`, not the original snippet. -/
theorem highlight_changes_case :
    CitationExtractor.highlight_terms "Zebra runs".toList ["zebra".toList] =
      "**zebra** runs".toList ∧
    stripMarkers (CitationExtractor.highlight_terms "Zebra runs".toList ["zebra".toList]) =
      "zebra runs".toList ∧
    stripMarkers (CitationExtractor.highlight_terms "Zebra runs".toList ["zebra".toList]) ≠
      "Zebra runs".toList := by
  decide

/-- Witness for the amended C9 at a concrete snippet with two terms and
mixed case. -/
theorem highlight_preserves_text_mod_case_witness :
    pyLower (removeStars (CitationExtractor.highlight_terms "The zebra Runs fast".toList
      ["zebra".toList, "runs".toList])) = pyLower "The zebra Runs fast".toList :=
  highlight_preserves_text_mod_case "The zebra Runs fast".toList
    ["zebra".toList, "runs".toList] (by decide) (by decide)
